import Mathlib

set_option maxHeartbeats 1000000
set_option allowUnsafeReducibility true
attribute [local semireducible] Rat.mul Rat.add Rat.sub Rat.div Rat.inv Rat.normalize Rat.neg

/-!
Verification development for the NorMITs-Demand segmented-vector engine
(`normits_demand/core/data_structures.py`).

Modelling conventions:
* Numeric values (Python floats / numpy arrays) are modelled as exact
  rationals (`ℚ`) and lists of rationals; float literals such as `0.2`,
  `1/3`, `1e-10` or `0.0001` are modelled by the exact rationals they
  denote in the source text.
* Python dictionaries are association lists with unique keys
  (`Dict := List (Key × Val)`); assignment `d[k] = v` replaces the value
  in place when the key exists and appends otherwise, like a Python dict.
* Fallible code returns `Except NdError`; a `raise` is `.error`.
* The segmentation and zoning oracles (`SegmentationLevel`,
  `ZoningSystem`) are external collaborators: the mapping dictionaries
  they return (`multiply`, `aggregate`, `expand`, ...) are passed to the
  engine functions as explicit parameters.
-/

abbrev Key := String

/-- A value held for one segment of a `DVector`: a scalar when the vector
is zoneless, an array indexed by zone otherwise.  `pynone` models the
Python `None` placeholder that `dict.fromkeys` writes into freshly
created data dictionaries before they are filled in
(`DVector.convert_time_format` leaves it behind for any segment not
covered by a time-period group); Python arithmetic on `None` raises, so
`pynone` is absorbing for the arithmetic below and flattens to the empty
array. -/
inductive Val where
  | scalar (q : ℚ)
  | arr (xs : List ℚ)
  | pynone
deriving DecidableEq

/-- `numpy.ndarray.flatten` (a scalar behaves as a 0-d array). -/
def Val.flatten : Val → List ℚ
  | .scalar q => [q]
  | .arr xs => xs
  | .pynone => []

/-- Elementwise numpy multiplication with scalar broadcasting, as used by
`DVector.__mul__` and friends. -/
def Val.mul : Val → Val → Val
  | .scalar a, .scalar b => .scalar (a * b)
  | .scalar a, .arr ys => .arr (ys.map (fun y => a * y))
  | .arr xs, .scalar b => .arr (xs.map (fun x => x * b))
  | .arr xs, .arr ys => .arr (List.zipWith (fun x y => x * y) xs ys)
  | .pynone, _ => .pynone
  | _, .pynone => .pynone

/-- Elementwise numpy addition with scalar broadcasting (used by the
merge of per-chunk dictionaries). -/
def Val.add : Val → Val → Val
  | .scalar a, .scalar b => .scalar (a + b)
  | .scalar a, .arr ys => .arr (ys.map (fun y => a + y))
  | .arr xs, .scalar b => .arr (xs.map (fun x => x + b))
  | .arr xs, .arr ys => .arr (List.zipWith (fun x y => x + y) xs ys)
  | .pynone, _ => .pynone
  | _, .pynone => .pynone

/-- `np.sum(value)`: the sum of all entries. -/
def Val.vsum (v : Val) : ℚ := v.flatten.sum

/-- `np.sum(list_of_equal_length_arrays, axis=0)`: elementwise sum; numpy
returns the scalar `0.0` on an empty list. -/
def npSumAxis0 (ls : List (List ℚ)) : Val :=
  match ls with
  | [] => .scalar 0
  | l :: rest => .arr (rest.foldl (fun acc x => List.zipWith (fun a b => a + b) acc x) l)

/-- A Python data dictionary: segment key to value, unique keys. -/
abbrev Dict := List (Key × Val)

def dkeys (d : Dict) : List Key := d.map Prod.fst

def dlookup (d : Dict) (k : Key) : Option Val :=
  (d.find? (fun p => p.1 == k)).map Prod.snd

/-- Python dict assignment `d[k] = v`: replace in place if the key is
present (a Python dict holds each key once, so replacing the first
occurrence is exact), append otherwise. -/
def dset (d : Dict) (k : Key) (v : Val) : Dict :=
  match d with
  | [] => [(k, v)]
  | p :: rest => if p.1 == k then (k, v) :: rest else p :: dset rest k v

/-- `d[k] = d[k] + v` if present, `d[k] = v` otherwise (the accumulation
step of the per-chunk dictionary merge). -/
def dinsertAdd (d : Dict) (k : Key) (v : Val) : Dict :=
  match dlookup d k with
  | some old => dset d k (old.add v)
  | none => d ++ [(k, v)]

/-- The exception taxonomy of the engine. -/
inductive NdError where
  | valueError (msg : String)
  | zoningError (msg : String)
  | segmentationError (msg : String)
  | normitsError (msg : String)
  | keyError
  | attributeError
  | zeroDivisionError
deriving DecidableEq

instance exceptDecEq {ε α : Type} [DecidableEq ε] [DecidableEq α] : DecidableEq (Except ε α) :=
  fun a b =>
  match a, b with
  | .ok x, .ok y =>
    if h : x = y then .isTrue (by rw [h]) else .isFalse (fun hc => h (by cases hc; rfl))
  | .error x, .error y =>
    if h : x = y then .isTrue (by rw [h]) else .isFalse (fun hc => h (by cases hc; rfl))
  | .ok _, .error _ => .isFalse (fun hc => Except.noConfusion hc)
  | .error _, .ok _ => .isFalse (fun hc => Except.noConfusion hc)

/-- Monadic map over a list in the `Except` monad; the first error wins,
exactly like a Python loop that may `raise`. -/
def mapE {α β : Type} (f : α → Except NdError β) : List α → Except NdError (List β)
  | [] => .ok []
  | a :: as =>
    match f a with
    | .error e => .error e
    | .ok b =>
      match mapE f as with
      | .error e => .error e
      | .ok bs => .ok (b :: bs)

/-- The zoning oracle: an enumerable ordered set of zones.  Equality of
zoning systems (`self.zoning_system == other.zoning_system`) is structural
equality of the descriptors. -/
structure ZoningSystem where
  name : String
  n_zones : ℕ
  unique_zones : List ℕ
deriving DecidableEq

/-- The segmentation oracle descriptor: the data the engine reads off it
directly.  The mapping queries (`multiply`, `aggregate`, `expand`, ...)
are passed to the engine functions as explicit parameters. -/
structure SegmentationLevel where
  name : String
  segment_names : List Key
  has_time_period_segments : Bool
  tp_groups : List (ℕ × List Key)
deriving DecidableEq

inductive TimeFormat where
  | AVG_WEEK
  | AVG_DAY
  | AVG_HOUR
deriving DecidableEq

/-- Conversion-factor tables: time period to multiplicative factor. -/
abbrev Factors := List (ℕ × ℚ)

def flookup (fs : Factors) (tp : ℕ) : Option ℚ :=
  (fs.find? (fun p => p.1 == tp)).map Prod.snd

/-- `TimeFormat._week_to_day_factors` (float `0.2` is the rational 1/5). -/
def week_to_day_factors : Factors :=
  [(1, 1/5), (2, 1/5), (3, 1/5), (4, 1/5), (5, 1), (6, 1)]

/-- `TimeFormat._day_to_hour_factors`. -/
def day_to_hour_factors : Factors :=
  [(1, 1/3), (2, 1/6), (3, 1/3), (4, 1/12), (5, 1/24), (6, 1/24)]

/-- `{k: 1 / v for k, v in factors.items()}`. -/
def invert_factors (fs : Factors) : Factors := fs.map (fun p => (p.1, 1 / p.2))

/-- Modelled from the spec: `du.combine_dict_list(dict_list=[f, g],
operation=operator.mul)` lives in `utils/general.py`, which is not under
`src/`.  The spec (§3, Conversion Factor Table) says compound factors are
"composed via chained multiplication ... (e.g., week→hour = week→day
factor × day→hour factor)", i.e. the two tables are combined key-wise by
multiplication. -/
def combine_factors (f g : Factors) : Factors :=
  f.filterMap (fun p => (flookup g p.1).map (fun y => (p.1, p.2 * y)))

/-- `TimeFormat._hour_to_day_factors`: inverse of day to hour factors. -/
def hour_to_day_factors : Factors := invert_factors day_to_hour_factors

/-- `TimeFormat._day_to_week_factors`: inverse of week to day factors. -/
def day_to_week_factors : Factors := invert_factors week_to_day_factors

/-- `TimeFormat._week_to_hour_factors`: compound week to day and day to
hour factors. -/
def week_to_hour_factors : Factors :=
  combine_factors week_to_day_factors day_to_hour_factors

/-- `TimeFormat._hour_to_week_factors`: compound hour to day and day to
week factors. -/
def hour_to_week_factors : Factors :=
  combine_factors hour_to_day_factors day_to_week_factors

/-- `TimeFormat.get_conversion_factors`. -/
def TimeFormat.get_conversion_factors (a b : TimeFormat) : Except NdError Factors :=
  if a = b then
    .error (.valueError "Cannot get the conversion factors when converting to self.")
  else
    match a, b with
    | .AVG_WEEK, .AVG_DAY => .ok week_to_day_factors
    | .AVG_WEEK, .AVG_HOUR => .ok week_to_hour_factors
    | .AVG_DAY, .AVG_WEEK => .ok day_to_week_factors
    | .AVG_DAY, .AVG_HOUR => .ok day_to_hour_factors
    | .AVG_HOUR, .AVG_WEEK => .ok hour_to_week_factors
    | .AVG_HOUR, .AVG_DAY => .ok hour_to_day_factors
    | _, _ => .error (.normitsError "cannot figure out the conversion factors")

/-- The segmented-vector data structure (`DVector`): the fields that the
algebraic operators observe.  `process_count`, `verbose` and the chunk
sizes only steer the parallel execution and are passed to the operators
that use them as explicit parameters. -/
structure DVector where
  zoning_system : Option ZoningSystem
  segmentation : SegmentationLevel
  data : Dict
  time_format : Option TimeFormat
deriving DecidableEq

/-- `DVector._validate_time_format` on an already-parsed value: a time
format must be supplied when the segmentation carries time-period
segments (the string-parsing branch of the source normalises a valid
string to the corresponding `TimeFormat` member and is not needed by the
claims). -/
def validate_time_format (seg : SegmentationLevel) (tf : Option TimeFormat) :
    Except NdError (Option TimeFormat) :=
  if seg.has_time_period_segments = true ∧ tf = none then
    .error (.valueError "time periods in segmentation but time format not defined")
  else .ok tf

/-- The default value used to infill missing segments: scalar `infill`
if zoneless, else an array of `infill` repeated `n_zones` times. -/
def default_val (zs : Option ZoningSystem) (infill : ℚ) : Val :=
  match zs with
  | none => .scalar infill
  | some z => .arr (List.replicate z.n_zones infill)

/-- The infill loop of `_dict_to_dvec` / `_dataframe_to_dvec`: every valid
segment name absent from the dictionary is inserted with the default
value. -/
def infill_missing (segment_names : List Key) (dv : Val) (d : Dict) : Dict :=
  d ++ (segment_names.filter (fun s => !((dkeys d).contains s))).map (fun s => (s, dv))

/-- Modelled from the spec: `SegmentationLevel.is_correct_naming` is part
of the segmentation oracle, which is not under `src/`.  Per the spec (§3,
invariant 1) the data key set must equal the segmentation's valid segment
key set exactly — no missing, no extra keys. -/
def is_correct_naming (seg : SegmentationLevel) (ks : List Key) : Bool :=
  ks.all (fun k => seg.segment_names.contains k) &&
    seg.segment_names.all (fun s => ks.contains s)

/-- `DVector._dict_to_dvec`: infill the missing segments, then reject any
extra segment names.  The infill loop executes
`import_data[name] = default_val.copy()`; with a null zoning system
`default_val` is the plain `infill` number, which has no `.copy` method,
so the first missing segment raises AttributeError — before anything is
inserted and before the naming check runs.  With a zoning system
`default_val` is an `np.array` and the copies succeed. -/
def dict_to_dvec (seg : SegmentationLevel) (zs : Option ZoningSystem) (infill : ℚ)
    (import_data : Dict) : Except NdError Dict :=
  if zs = none ∧
      seg.segment_names.filter (fun s => !((dkeys import_data).contains s)) ≠ [] then
    .error .attributeError
  else
    let d := infill_missing seg.segment_names (default_val zs infill) import_data
    if is_correct_naming seg (dkeys d) then .ok d
    else .error (.segmentationError "additional segment names in the given DVector data dictionary")

/-- The `DVector` constructor on a data dictionary (`__init__` with
`import_data` a dict): validate the time format, then validate and infill
the dictionary. -/
def DVector.make (zs : Option ZoningSystem) (seg : SegmentationLevel) (import_data : Dict)
    (tf : Option TimeFormat) (infill : ℚ) : Except NdError DVector :=
  match validate_time_format seg tf with
  | .error e => .error e
  | .ok tf2 =>
    match dict_to_dvec seg zs infill import_data with
    | .error e => .error e
    | .ok d => .ok ⟨zs, seg, d, tf2⟩

/-- A heap of Python dictionary objects, for stating aliasing facts: a
reference is an index into the store. -/
abbrev Store := List Dict

def storeGet (st : Store) (r : ℕ) : Option Dict := st.get? r

def storeSet (st : Store) (r : ℕ) (d : Dict) : Store := st.set r d

/-- `DVector._dict_to_dvec` with the caller's dictionary modelled as a
heap reference: the infill loop assigns into the referenced dictionary
object itself (`import_data[name] = default_val.copy()`), no copy is
taken, and the function returns that same reference as the new vector's
data.  With a null zoning system and a missing segment the loop raises
AttributeError on `default_val.copy()` (a plain number) while evaluating
the first right-hand side, so nothing is inserted and the referenced
dictionary is left unchanged. -/
def dict_to_dvec_store (seg : SegmentationLevel) (zs : Option ZoningSystem) (infill : ℚ)
    (st : Store) (r : ℕ) : Except NdError (Store × ℕ) :=
  match storeGet st r with
  | none => .error .keyError
  | some d =>
    if zs = none ∧
        seg.segment_names.filter (fun s => !((dkeys d).contains s)) ≠ [] then
      .error .attributeError
    else
      let d2 := infill_missing seg.segment_names (default_val zs infill) d
      let st2 := storeSet st r d2
      if is_correct_naming seg (dkeys d2) then .ok (st2, r)
      else .error (.segmentationError "additional segment names in the given DVector data dictionary")

/-- One row of the long-format table after the column preprocessing of
`_dataframe_to_dvec` (renaming, composite segment column, extra-column
rejection): a composite segment key, a zone and a value.  On the zoneless
path the source table has no zone column; the `zone` field is simply
never read there. -/
structure DfRow where
  segment : Key
  zone : ℕ
  val : ℚ
deriving DecidableEq

/-- The `sort_values(by=[segment, zone])` ordering. -/
def rowLe (a b : DfRow) : Bool :=
  decide (a.segment < b.segment) ||
    (a.segment == b.segment && decide (a.zone ≤ b.zone))

def insertSorted (r : DfRow) : List DfRow → List DfRow
  | [] => [r]
  | x :: xs => if rowLe r x then r :: x :: xs else x :: insertSorted r xs

/-- `df.sort_values(by=sort_cols)` (a stable sort; only the ordering
matters downstream, not the algorithm). -/
def sortRows : List DfRow → List DfRow
  | [] => []
  | r :: rs => insertSorted r (sortRows rs)

/-- `pd_utils.chunk_df` (`src/normits_demand/utils/pandas_utils.py`)
yields consecutive `chunk_size`-row slices of the frame —
`df[i : i + chunk_size]` for `i in range(0, len(df), chunk_size)`.  The
same consecutive slicing models `du.chunk_list` (`utils/general.py`, not
under `src/`; modelled from the spec — §2 Chunk Scheduler, §5: balanced
consecutive chunks, each output key in exactly one chunk) used by
`multiply_and_aggregate`.  A zero chunk size raises in the source (range
step 0; the dataframe path raises ZeroDivisionError even earlier, see
`dataframe_to_dvec`), so callers only reach this with a positive size;
`chunkList` returns no chunks at size 0.  The first argument of
`chunksGo` is fuel bounding the recursion depth. -/
def chunksGo {α : Type} (n : ℕ) : ℕ → List α → List (List α)
  | 0, _ => []
  | _, [] => []
  | fuel + 1, x :: xs => ((x :: xs).take n) :: chunksGo n fuel ((x :: xs).drop n)

def chunkList {α : Type} (l : List α) (n : ℕ) : List (List α) :=
  if n = 0 then [] else chunksGo n l.length l

/-- `ceil(a / b)` on naturals. -/
def ceilDiv (a b : ℕ) : ℕ := (a + b - 1) / b

/-- `DVector._dataframe_to_dvec_internal`: convert one chunk of rows.
Zoneless: one scalar per segment, duplicate segments rejected.  Zoned:
per segment of the chunk, reject invalid segment names, duplicate zones
and unknown zones, then reindex over the zoning system's zones infilling
missing zones with 0. -/
def dataframe_to_dvec_internal (seg : SegmentationLevel) (zs : Option ZoningSystem)
    (chunk : List DfRow) : Except NdError Dict :=
  match zs with
  | none =>
    let segments := chunk.map DfRow.segment
    if segments.eraseDups.length ≠ segments.length then
      .error (.valueError "repeated values for some of the segments")
    else .ok (chunk.map (fun r => (r.segment, Val.scalar r.val)))
  | some z =>
    mapE (fun s =>
        let seg_rows := chunk.filter (fun r => r.segment == s)
        if !(seg.segment_names.contains s) then
          .error (.valueError "not a valid segment name for this segmentation")
        else
          let seg_zones := seg_rows.map DfRow.zone
          if seg_zones.eraseDups.length ≠ seg_zones.length then
            .error (.valueError "repeated values for some of the zones")
          else if !(seg_zones.all (fun zn => z.unique_zones.contains zn)) then
            .error (.valueError "zones that do not exist in this zoning system")
          else
            .ok (s, Val.arr (z.unique_zones.map (fun zn =>
              match seg_rows.find? (fun r => r.zone == zn) with
              | some r => r.val
              | none => 0))))
      ((chunk.map DfRow.segment).eraseDups)

/-- Modelled from the spec: `du.sum_dict_list` (`utils/general.py`, not
under `src/`) merges the per-chunk dictionaries into one.  The spec
(§4.1, §5) describes the merge as a union of the per-chunk results; as
its name says, the function adds the values of any key that appears in
more than one chunk, which is exactly what makes the row-chunked
conversion correct when one segment's rows straddle a chunk boundary. -/
def sum_dict_list (ds : List Dict) : Dict :=
  ds.foldl (fun acc d => d.foldl (fun acc2 kv => dinsertAdd acc2 kv.1 kv.2) acc) []

/-- `DVector._dataframe_to_dvec`: sort, chunk, convert each chunk, merge,
then infill the missing segments with the default value
(`data[name] = copy.copy(default_val)`, which succeeds on plain numbers).
Before chunking, the progress-bar setup computes
`math.ceil(len(df) / chunk_size)`, so a zero chunk size — an empty sorted
table, or `df_chunk_size` zero — raises ZeroDivisionError
(`pd_utils.chunk_df` would also raise on the zero range step just
after). -/
def dataframe_to_dvec (seg : SegmentationLevel) (zs : Option ZoningSystem) (infill : ℚ)
    (df_chunk_size process_count : ℕ) (rows : List DfRow) : Except NdError Dict :=
  let sorted := sortRows rows
  let chunk_size :=
    if sorted.length < df_chunk_size * process_count then ceilDiv sorted.length process_count
    else df_chunk_size
  if chunk_size = 0 then .error .zeroDivisionError
  else
  match mapE (dataframe_to_dvec_internal seg zs) (chunkList sorted chunk_size) with
  | .error e => .error e
  | .ok chunks =>
    .ok (infill_missing seg.segment_names (default_val zs infill) (sum_dict_list chunks))

/-- `DVector.sum`: `np.sum([x.flatten() for x in self._data.values()])`. -/
def DVector.sum (v : DVector) : ℚ := (v.data.map (fun kv => kv.2.flatten.sum)).sum

/-- `abs` on the rationals, written out so it evaluates by kernel
reduction. -/
def qabs (q : ℚ) : ℚ := if q < 0 then -q else q

/-- `max` on the rationals, written out so it evaluates by kernel
reduction. -/
def qmax (a b : ℚ) : ℚ := if a ≤ b then b else a

/-- `math.isclose(a, b, rel_tol, abs_tol)`:
`abs(a-b) <= max(rel_tol * max(abs(a), abs(b)), abs_tol)`. -/
def isClose (a b rel_tol abs_tol : ℚ) : Bool :=
  decide (qabs (a - b) ≤ qmax (rel_tol * qmax (qabs a) (qabs b)) abs_tol)

/-- `DVector.sum_is_close` (defaults in the source: `rel_tol=0.0001`,
`abs_tol=0.0`). -/
def DVector.sum_is_close (a b : DVector) (rel_tol abs_tol : ℚ) : Bool :=
  isClose a.sum b.sum rel_tol abs_tol

/-- The zoning-compatibility check of `DVector.__mul__`. -/
def mulZoning (az bz : Option ZoningSystem) : Except NdError (Option ZoningSystem) :=
  if az = bz then .ok az
  else if az = none then .ok bz
  else if bz = none then .ok az
  else .error (.zoningError "Cannot multiply two Dvectors using different zoning systems.")

/-- `DVector._choose_time_format`: prefer self's time format, else
other's.  The source additionally emits a non-fatal warning when both are
set and differ; warnings do not affect the returned value. -/
def choose_time_format (a b : DVector) : Option TimeFormat :=
  match a.time_format with
  | some t => some t
  | none => b.time_format

/-- The data-building loop shared by `DVector.__mul__` and
`DVector.expand_segmentation`: for every entry `(result_key, left_key,
right_key)` of the oracle mapping, elementwise-multiply
`left_data[left_key] * right_data[right_key]`. -/
def pairwise_mul_data (mapping : List (Key × Key × Key)) (left_data right_data : Dict) :
    Except NdError Dict :=
  mapE (fun e =>
    match dlookup left_data e.2.1, dlookup right_data e.2.2 with
    | some va, some vb => .ok (e.1, va.mul vb)
    | _, _ => .error .keyError) mapping

/-- `DVector.__mul__`, parameterised by the multiplication mapping and
result segmentation that the segmentation oracle returns for
`self.segmentation * other.segmentation`: each entry of `multiply_dict`
is `(result_key, self_key, other_key)`. -/
def DVector.mul (multiply_dict : List (Key × Key × Key)) (return_seg : SegmentationLevel)
    (a b : DVector) : Except NdError DVector :=
  match mulZoning a.zoning_system b.zoning_system with
  | .error e => .error e
  | .ok return_zoning =>
    match pairwise_mul_data multiply_dict a.data b.data with
    | .error e => .error e
    | .ok d => DVector.make return_zoning return_seg d (choose_time_format a b) 0

/-- `DVector.copy`: rebuild through the constructor from the same
fields. -/
def DVector.copy (v : DVector) : Except NdError DVector :=
  DVector.make v.zoning_system v.segmentation v.data v.time_format 0

/-- `DVector.aggregate`, parameterised by the aggregation mapping the
segmentation oracle returns (`self.segmentation.aggregate(out_segmentation)`
or, with `split_tfntt_segmentation=True`, the split mapping — the engine
applies the identical sum-and-regroup logic to either): each output key
maps to the list of input keys to sum, flattened first. -/
def aggregate_data (aggregation_dict : List (Key × List Key)) (dat : Dict) :
    Except NdError Dict :=
  mapE (fun e =>
    match mapE (fun s =>
        match dlookup dat s with
        | some w => .ok w
        | none => .error .keyError) e.2 with
    | .error err => .error err
    | .ok vals => .ok (e.1, npSumAxis0 (vals.map Val.flatten))) aggregation_dict

def DVector.aggregate (aggregation_dict : List (Key × List Key))
    (out_segmentation : SegmentationLevel) (v : DVector) : Except NdError DVector :=
  match aggregate_data aggregation_dict v.data with
  | .error e => .error e
  | .ok d => DVector.make v.zoning_system out_segmentation d v.time_format 0

/-- Lookup in the multiplication mapping. -/
def mdLookup (md : List (Key × Key × Key)) (k : Key) : Option (Key × Key) :=
  (md.find? (fun p => p.1 == k)).map Prod.snd

/-- `DVector._multiply_and_aggregate_internal` over one chunk of
aggregation entries: for each output key, multiply the needed source
pairs, flatten, and sum.  (The kwarg construction in the source slices
`multiply_dict`, `self._data` and `other._data` down to the keys the
chunk references before shipping them to the worker; that slicing is a
data-movement optimisation — each lookup below touches exactly those
entries.) -/
def multiply_and_aggregate_internal (multiply_dict : List (Key × Key × Key))
    (self_data other_data : Dict) (chunk : List (Key × List Key)) :
    Except NdError Dict :=
  mapE (fun e =>
    match mapE (fun s =>
        match mdLookup multiply_dict s with
        | none => .error .keyError
        | some sk =>
          match dlookup self_data sk.1, dlookup other_data sk.2 with
          | some va, some vb => .ok ((va.mul vb).flatten)
          | _, _ => .error .keyError) e.2 with
    | .error err => .error err
    | .ok prods => .ok (e.1, npSumAxis0 prods)) chunk

/-- `DVector.multiply_and_aggregate`, parameterised by the oracle
mappings (`multiply_dict, mult_return_seg = self.segmentation *
other.segmentation` and `aggregation_dict =
mult_return_seg.aggregate(out_segmentation)`) and by `chunk_divider`
(`process_count * 3`, or 1 when multiprocessing is off).  The merge
`dict.fromkeys(aggregation_dict.keys())` + per-chunk `update` equals
concatenation of the per-chunk dictionaries, because the chunks are
consecutive disjoint slices of the aggregation keys. -/
def DVector.multiply_and_aggregate (multiply_dict : List (Key × Key × Key))
    (aggregation_dict : List (Key × List Key)) (out_segmentation : SegmentationLevel)
    (chunk_divider : ℕ) (a b : DVector) : Except NdError DVector :=
  let chunk_size := ceilDiv aggregation_dict.length chunk_divider
  match mapE (multiply_and_aggregate_internal multiply_dict a.data b.data)
      (chunkList aggregation_dict chunk_size) with
  | .error e => .error e
  | .ok chunk_results =>
    DVector.make a.zoning_system out_segmentation chunk_results.flatten
      (choose_time_format a b) 0

/-- Scale row `i` of the translation matrix by entry `i` of the source
array: `np.broadcast_to(np.expand_dims(value, axis=1), translation.shape)
* translation`. -/
def scaleRows (vec : List ℚ) (translation : List (List ℚ)) : List (List ℚ) :=
  List.zipWith (fun x row => row.map (fun t => x * t)) vec translation

/-- `temp.sum(axis=0)`: column sums of a non-empty rectangular matrix. -/
def matColSums (rows : List (List ℚ)) : List ℚ :=
  match rows with
  | [] => []
  | r :: rest => rest.foldl (fun acc x => List.zipWith (fun a b => a + b) acc x) r

/-- `DVector._translate_zoning_internal` over one chunk of the data
dictionary. -/
def translate_zoning_internal (translation : List (List ℚ)) (d : Dict) : Dict :=
  d.map (fun kv => (kv.1, Val.arr (matColSums (scaleRows kv.2.flatten translation))))

/-- `DVector.translate_zoning`, parameterised by the translation matrix
the zoning oracle returns for `self.zoning_system.translate(new_zoning,
weighting)`, by `chunk_divider` and by the minimum chunk size
(`_translate_zoning_min_chunk_size = 700` in the source).  A `DVector`
without a zoning system hits `self.zoning_system.name` on `None`, an
`AttributeError`. -/
def DVector.translate_zoning (new_zoning : ZoningSystem) (translation : List (List ℚ))
    (chunk_divider min_chunk_size : ℕ) (v : DVector) : Except NdError DVector :=
  match v.zoning_system with
  | none => .error .attributeError
  | some _ =>
    let chunk_size := max (ceilDiv v.data.length chunk_divider) min_chunk_size
    let chunks := (chunkList v.data chunk_size).map (translate_zoning_internal translation)
    DVector.make (some new_zoning) v.segmentation chunks.flatten v.time_format 0

/-- The body of `DVector.expand_segmentation` before the mass check:
validate the expansion vector's zoning, multiply along the expansion
mapping the segmentation oracle returns
(`self.segmentation.expand(expansion_dvec.segmentation)`; each entry is
`(result_key, self_key, expansion_key)`), and construct the result — with
no `time_format` argument, so the new vector gets `None`. -/
def expand_build (expand_dict : List (Key × Key × Key)) (return_seg : SegmentationLevel)
    (self expansion_dvec : DVector) : Except NdError DVector :=
  match self.zoning_system with
  | some z =>
    if expansion_dvec.zoning_system = some z ∨ expansion_dvec.zoning_system = none then
      match pairwise_mul_data expand_dict self.data expansion_dvec.data with
      | .error e => .error e
      | .ok d => DVector.make self.zoning_system return_seg d none 0
    else .error (.valueError "expansion DVector has a different zoning system")
  | none =>
    match pairwise_mul_data expand_dict self.data expansion_dvec.data with
    | .error e => .error e
    | .ok d => DVector.make self.zoning_system return_seg d none 0

/-- `DVector.expand_segmentation`: build the expanded vector, then make
sure no demand was dropped — before and after totals must be close
(`sum_is_close` with its defaults `rel_tol=0.0001`, `abs_tol=0.0`),
otherwise raise. -/
def DVector.expand_segmentation (expand_dict : List (Key × Key × Key))
    (return_seg : SegmentationLevel) (self expansion_dvec : DVector) :
    Except NdError DVector :=
  match expand_build expand_dict return_seg self expansion_dvec with
  | .error e => .error e
  | .ok expanded_dvec =>
    if self.sum_is_close expanded_dvec (1/10000) 0 then .ok expanded_dvec
    else .error (.valueError "Error when expanding DVector. Before and after totals do not match")

/-- `DVector._zero_infill = 1e-10`. -/
def zero_infill : ℚ := 1 / 10000000000

/-- `np.where(data <= 0, infill, data)`: replace nonpositive entries with
the infill value. -/
def infill_nonpos (infill : ℚ) : Val → Val
  | .scalar q => .scalar (if q ≤ 0 then infill else q)
  | .arr xs => .arr (xs.map (fun x => if x ≤ 0 then infill else x))
  | .pynone => .pynone

/-- `DVector.balance_at_segments` without the weekday/weekend option:
reject a segmentation mismatch, then per segment infill nonpositive
entries of both operands with `_zero_infill` and rescale self's data by
`np.sum(other_data) / np.sum(self_data)`. -/
def balance_data (self other : DVector) : Except NdError Dict :=
  mapE (fun s =>
    match dlookup self.data s, dlookup other.data s with
    | some sd, some od =>
      let sd2 := infill_nonpos zero_infill sd
      let od2 := infill_nonpos zero_infill od
      .ok (s, sd2.mul (.scalar (od2.vsum / sd2.vsum)))
    | _, _ => .error .keyError) self.segmentation.segment_names

def DVector.balance_at_segments (self other : DVector) : Except NdError DVector :=
  if self.segmentation.name ≠ other.segmentation.name then
    .error (.valueError "Segmentation of both DVectors does not match!")
  else
    match balance_data self other with
    | .error e => .error e
    | .ok d => DVector.make self.zoning_system other.segmentation d self.time_format 0

/-- One assignment `dvec_data[seg] = self._data[seg] * conversion_factors[tp]`
of `convert_time_format`; a segment named by a time-period group but
absent from the data dictionary raises a `KeyError`. -/
def ctf_apply_seg (data : Dict) (factors : Factors) (tp : ℕ) (s : Key) (acc : Dict) :
    Except NdError Dict :=
  match dlookup data s with
  | none => .error .keyError
  | some v =>
    match flookup factors tp with
    | none => .error .keyError
    | some f => .ok (dset acc s (v.mul (.scalar f)))

def ctf_apply_group (data : Dict) (factors : Factors) (tp : ℕ) :
    List Key → Dict → Except NdError Dict
  | [], acc => .ok acc
  | s :: rest, acc =>
    match ctf_apply_seg data factors tp s acc with
    | .error e => .error e
    | .ok acc2 => ctf_apply_group data factors tp rest acc2

/-- The conversion loop `for tp, segments in tp_groups.items(): for seg in
segments: ...` over an accumulator initialised by
`dict.fromkeys(self._data.keys())`. -/
def ctf_fold (data : Dict) (factors : Factors) :
    List (ℕ × List Key) → Dict → Except NdError Dict
  | [], acc => .ok acc
  | g :: gs, acc =>
    match ctf_apply_group data factors g.1 g.2 acc with
    | .error e => .error e
    | .ok acc2 => ctf_fold data factors gs acc2

/-- `DVector.convert_time_format`.  The time-period groups
(`self.segmentation.get_time_period_groups()`) are read off the
segmentation descriptor. -/
def DVector.convert_time_format (v : DVector) (new_time_format : Option TimeFormat) :
    Except NdError DVector :=
  match validate_time_format v.segmentation new_time_format with
  | .error e => .error e
  | .ok ntf =>
    match v.time_format with
    | none => .error (.valueError "cannot convert the time format of a DVector without one")
    | some cur =>
      match ntf with
      | none => .error (.valueError "cannot convert the time format of a DVector to None")
      | some ntf2 =>
        if v.segmentation.has_time_period_segments = false then
          .error (.valueError "cannot convert the time format without a tp segment")
        else if cur = ntf2 then v.copy
        else
          match cur.get_conversion_factors ntf2 with
          | .error e => .error e
          | .ok factors =>
            if !(v.segmentation.tp_groups.all (fun g => (factors.map Prod.fst).contains g.1)) then
              .error (.segmentationError "missing conversion factors for some time periods")
            else
              match ctf_fold v.data factors v.segmentation.tp_groups
                  (v.data.map (fun kv => (kv.1, Val.pynone))) with
              | .error e => .error e
              | .ok d => DVector.make v.zoning_system v.segmentation d (some ntf2) 0

/-- The per-segment total of a DVector (`np.sum` of that segment's
data), used to state the balancing and translation claims. -/
def segment_total (v : DVector) (s : Key) : ℚ :=
  match dlookup v.data s with
  | some w => w.flatten.sum
  | none => 0

/-- The specification's formula for zone translation (§4.5): for every
segment, `new_value[j] = sum_i old_value[i] * translation[i][j]`.  This
definition follows the spec's words; the engine's
`translate_zoning_internal` is proved to refine it. -/
def translate_spec_value (old_value : List ℚ) (translation : List (List ℚ)) (j : ℕ) : ℚ :=
  ((List.range old_value.length).map
    (fun i => old_value.getD i 0 * (translation.getD i []).getD j 0)).sum

/-- Lookup with the `pynone` default, for stating per-key facts. -/
def dlookupD (d : Dict) (k : Key) : Val := (dlookup d k).getD Val.pynone

/-- The factor applied to a segment by `convert_time_format`: the factor
of the (unique) time-period group containing it. -/
def tpFactor (groups : List (ℕ × List Key)) (factors : Factors) (k : Key) : Option ℚ :=
  match groups.find? (fun g => g.2.contains k) with
  | some g => flookup factors g.1
  | none => none

/-- Concrete test fixtures used by the witness theorems. -/
def zsA : ZoningSystem := ⟨"zoning_a", 2, [1, 2]⟩

def zsB : ZoningSystem := ⟨"zoning_b", 1, [7]⟩

def segM : SegmentationLevel := ⟨"seg_m", ["m"], false, []⟩

def segX : SegmentationLevel := ⟨"seg_x", ["x"], false, []⟩

def segMX : SegmentationLevel := ⟨"seg_mx", ["mx"], false, []⟩

def segOut : SegmentationLevel := ⟨"seg_out", ["out"], false, []⟩

def segPair : SegmentationLevel := ⟨"seg_pair", ["p", "q"], false, []⟩

def segP : SegmentationLevel := ⟨"seg_p", ["p"], false, []⟩

def segA1 : SegmentationLevel := ⟨"seg_a", ["a"], false, []⟩

def segExp : SegmentationLevel := ⟨"seg_exp", ["w1", "w2"], false, []⟩

def segAE : SegmentationLevel := ⟨"seg_ae", ["a1", "a2"], false, []⟩

def segAEtp : SegmentationLevel := ⟨"seg_ae_tp", ["a1", "a2"], true, [(1, ["a1", "a2"])]⟩

def segTp : SegmentationLevel := ⟨"seg_tp", ["t1"], true, [(1, ["t1"])]⟩

def dvNoZone : DVector := ⟨none, segM, [("m", .scalar 2)], none⟩

def dvZoned : DVector := ⟨some zsB, segX, [("x", .arr [3])], none⟩

def dvZonedA : DVector := ⟨some zsA, segM, [("m", .arr [1, 1])], none⟩

def mdMX : List (Key × Key × Key) := [("mx", "m", "x")]

def adOut : List (Key × List Key) := [("out", ["mx"])]

def dvSelfExp : DVector := ⟨none, segA1, [("a", .scalar 5)], none⟩

def dvWgood : DVector := ⟨none, segExp, [("w1", .scalar (3/10)), ("w2", .scalar (7/10))], none⟩

def dvWbad : DVector := ⟨none, segExp, [("w1", .scalar (3/10)), ("w2", .scalar (3/10))], none⟩

def edAE : List (Key × Key × Key) := [("a1", "a", "w1"), ("a2", "a", "w2")]

def dvExpGood : DVector := ⟨none, segAE, [("a1", .scalar (3/2)), ("a2", .scalar (7/2))], none⟩

def dvAgg : DVector := ⟨some zsA, segPair, [("p", .arr [1, 2]), ("q", .arr [3, 4])], none⟩

def adPair : List (Key × List Key) := [("out", ["p", "q"])]

def dvBalSelf : DVector := ⟨some zsA, segP, [("p", .arr [1, 1])], none⟩

def dvBalOther : DVector := ⟨some zsA, segP, [("p", .arr [-10, 10])], none⟩

def dvTp : DVector := ⟨none, segTp, [("t1", .scalar 12)], some .AVG_HOUR⟩

def dvTrans : DVector := ⟨some zsA, segP, [("p", .arr [1, 2])], none⟩

def trMat : List (List ℚ) := [[1/2, 1/2], [0, 1]]

def dvExpBad : DVector := ⟨none, segAE, [("a1", .scalar (3/2)), ("a2", .scalar (3/2))], none⟩

def dvBalPos : DVector := ⟨some zsA, segP, [("p", Val.arr [2, 6])], none⟩

/-- The data dictionary `DVector.__mul__` builds when every source key is
present: entry `result_key ↦ self[self_key] * other[other_key]`. -/
def mul_product_dict (md : List (Key × Key × Key)) (ad bd : Dict) : Dict :=
  md.map (fun e => (e.1, (dlookupD ad e.2.1).mul (dlookupD bd e.2.2)))

def mdMM : List (Key × Key × Key) := [("mx", "m", "m")]

-- ## END OF DEFINITIONS ## --

theorem beqKey_iff {a b : Key} : (a == b) = true ↔ a = b := beq_iff_eq

theorem mapE_eq_ok_of {α β : Type} {f : α → Except NdError β} {g : α → β} :
    ∀ {l : List α}, (∀ a ∈ l, f a = .ok (g a)) → mapE f l = .ok (l.map g) := by
  intro l
  induction l with
  | nil => intro _; rfl
  | cons a as ih =>
    intro h
    have ha := h a (by simp)
    have has : ∀ x ∈ as, f x = .ok (g x) := fun x hx => h x (by simp [hx])
    simp [mapE, ha, ih has]

theorem mapE_congr {α β : Type} {f f' : α → Except NdError β} :
    ∀ {l : List α}, (∀ a ∈ l, f a = f' a) → mapE f l = mapE f' l := by
  intro l
  induction l with
  | nil => intro _; rfl
  | cons a as ih =>
    intro h
    have ha := h a (by simp)
    have has : ∀ x ∈ as, f x = f' x := fun x hx => h x (by simp [hx])
    simp [mapE, ha, ih has]

theorem mapE_ok_forall₂ {α β : Type} {f : α → Except NdError β} :
    ∀ {l : List α} {bs : List β}, mapE f l = .ok bs →
      List.Forall₂ (fun a b => f a = .ok b) l bs := by
  intro l
  induction l with
  | nil => intro bs h; simp [mapE] at h; subst h; exact List.Forall₂.nil
  | cons a as ih =>
    intro bs h
    simp only [mapE] at h
    cases hfa : f a with
    | error e => rw [hfa] at h; exact absurd h (by simp)
    | ok b =>
      rw [hfa] at h
      cases hrest : mapE f as with
      | error e => rw [hrest] at h; exact absurd h (by simp)
      | ok bs2 =>
        rw [hrest] at h
        simp only [Except.ok.injEq] at h
        subst h
        exact List.Forall₂.cons hfa (ih hrest)

theorem mapE_append {α β : Type} (f : α → Except NdError β) (l₁ l₂ : List α) :
    mapE f (l₁ ++ l₂) =
      match mapE f l₁ with
      | .error e => .error e
      | .ok b₁ =>
        match mapE f l₂ with
        | .error e => .error e
        | .ok b₂ => .ok (b₁ ++ b₂) := by
  induction l₁ with
  | nil =>
    simp only [List.nil_append, mapE]
    cases mapE f l₂ <;> rfl
  | cons a as ih =>
    have hcons : (a :: as) ++ l₂ = a :: (as ++ l₂) := rfl
    rw [hcons]
    show (match f a with
      | Except.error e => Except.error e
      | Except.ok b =>
        match mapE f (as ++ l₂) with
        | Except.error e => Except.error e
        | Except.ok bs => Except.ok (b :: bs)) =
      match mapE f (a :: as) with
      | Except.error e => Except.error e
      | Except.ok b₁ =>
        match mapE f l₂ with
        | Except.error e => Except.error e
        | Except.ok b₂ => Except.ok (b₁ ++ b₂)
    rw [ih]
    cases hfa : f a with
    | error e => simp only [mapE, hfa]
    | ok b =>
      simp only [mapE, hfa]
      cases mapE f as with
      | error e => rfl
      | ok bs => cases mapE f l₂ <;> rfl

theorem mapE_flatten {α β : Type} (f : α → Except NdError β) :
    ∀ (cs : List (List α)),
      mapE f cs.flatten =
        match mapE (mapE f) cs with
        | .error e => .error e
        | .ok bss => .ok bss.flatten := by
  intro cs
  induction cs with
  | nil => rfl
  | cons c cs ih =>
    simp only [List.flatten_cons, mapE_append, ih, mapE]
    cases mapE f c with
    | error e => rfl
    | ok b =>
      cases mapE (mapE f) cs with
      | error e => rfl
      | ok bss => rfl

theorem chunksGo_flatten {α : Type} {n : ℕ} (hn : 1 ≤ n) :
    ∀ (fuel : ℕ) (l : List α), l.length ≤ fuel → (chunksGo n fuel l).flatten = l := by
  intro fuel
  induction fuel with
  | zero =>
    intro l hl
    cases l with
    | nil => rfl
    | cons x xs => simp at hl
  | succ fuel ih =>
    intro l hl
    cases l with
    | nil => rfl
    | cons x xs =>
      simp only [chunksGo, List.flatten_cons]
      rw [ih ((x :: xs).drop n) ?_]
      · exact List.take_append_drop n (x :: xs)
      · have : ((x :: xs).drop n).length = (x :: xs).length - n := List.length_drop n (x :: xs)
        omega

theorem chunkList_flatten {α : Type} (l : List α) (n : ℕ) (h : 1 ≤ n ∨ l = []) :
    (chunkList l n).flatten = l := by
  unfold chunkList
  rcases h with hn | hl
  · rw [if_neg (by omega)]
    exact chunksGo_flatten hn l.length l (le_refl _)
  · subst hl
    cases n with
    | zero => rfl
    | succ m => rw [if_neg (by omega)]; rfl

theorem chunksGo_sublist {α : Type} {n : ℕ} :
    ∀ {fuel : ℕ} {l c : List α}, c ∈ chunksGo n fuel l → c.Sublist l := by
  intro fuel
  induction fuel with
  | zero => intro l c hc; simp [chunksGo] at hc
  | succ fuel ih =>
    intro l c hc
    cases l with
    | nil => simp [chunksGo] at hc
    | cons x xs =>
      simp only [chunksGo, List.mem_cons] at hc
      rcases hc with hc | hc
      · subst hc; exact List.take_sublist n (x :: xs)
      · exact (ih hc).trans (List.drop_sublist n (x :: xs))

theorem chunkList_sublist {α : Type} {l c : List α} {n : ℕ} (hc : c ∈ chunkList l n) :
    c.Sublist l := by
  unfold chunkList at hc
  by_cases hn : n = 0
  · simp [hn] at hc
  · rw [if_neg hn] at hc
    exact chunksGo_sublist hc

theorem dlookup_eq_none_iff {d : Dict} {k : Key} : dlookup d k = none ↔ k ∉ dkeys d := by
  unfold dlookup dkeys
  rw [Option.map_eq_none', List.find?_eq_none]
  constructor
  · intro h hk
    rcases List.mem_map.mp hk with ⟨p, hp, hpk⟩
    exact absurd (beqKey_iff.mpr hpk) (by simpa using h p hp)
  · intro h p hp hpk
    exact h (List.mem_map.mpr ⟨p, hp, beqKey_iff.mp hpk⟩)

theorem dlookup_isSome_iff {d : Dict} {k : Key} : (dlookup d k).isSome = true ↔ k ∈ dkeys d := by
  rw [← Decidable.not_iff_not, ← dlookup_eq_none_iff, Option.not_isSome_iff_eq_none]

theorem dlookup_mem {d : Dict} {k : Key} {v : Val} (h : dlookup d k = some v) : (k, v) ∈ d := by
  unfold dlookup at h
  rcases Option.map_eq_some'.mp h with ⟨p, hp, hpv⟩
  have hfk := List.find?_some hp
  have hk : p.1 = k := beqKey_iff.mp hfk
  have hmem := List.mem_of_find?_eq_some hp
  have : p = (k, v) := by
    cases p
    simp only at hk hpv
    rw [hk, hpv]
  rwa [this] at hmem

theorem dlookup_append (d₁ d₂ : Dict) (k : Key) :
    dlookup (d₁ ++ d₂) k = if k ∈ dkeys d₁ then dlookup d₁ k else dlookup d₂ k := by
  by_cases h : k ∈ dkeys d₁
  · rw [if_pos h]
    unfold dlookup
    rw [List.find?_append]
    cases hd : d₁.find? (fun p => p.1 == k) with
    | some p => rfl
    | none =>
      exact absurd (dlookup_eq_none_iff.mp (by unfold dlookup; rw [hd]; rfl)) (by simpa using h)
  · rw [if_neg h]
    unfold dlookup
    rw [List.find?_append]
    have : d₁.find? (fun p => p.1 == k) = none := by
      have := dlookup_eq_none_iff.mpr h
      unfold dlookup at this
      exact Option.map_eq_none'.mp this
    rw [this]
    rfl

theorem dlookup_of_nodup_mem {d : Dict} {k : Key} {v : Val}
    (hnd : (dkeys d).Nodup) (hmem : (k, v) ∈ d) : dlookup d k = some v := by
  induction d with
  | nil => simp at hmem
  | cons p rest ih =>
    simp only [List.mem_cons] at hmem
    unfold dlookup
    rcases hmem with hpv | hmem
    · subst hpv
      simp [List.find?_cons]
    · have hknd : p.1 ∉ dkeys rest := by
        unfold dkeys at hnd ⊢
        simp only [List.map_cons, List.nodup_cons] at hnd
        exact hnd.1
      have hkne : ¬(p.1 == k) = true := by
        intro hc
        have hpk := beqKey_iff.mp hc
        exact hknd (hpk ▸ (List.mem_map.mpr ⟨(k, v), hmem, rfl⟩))
      have hkfalse : (p.1 == k) = false := by
        cases hb : (p.1 == k)
        · rfl
        · exact absurd hb hkne
      have hnd2 : (dkeys rest).Nodup := by
        unfold dkeys at hnd ⊢
        simp only [List.map_cons, List.nodup_cons] at hnd
        exact hnd.2
      have hrec := ih hnd2 hmem
      unfold dlookup at hrec
      simp only [List.find?_cons, hkfalse]
      exact hrec

theorem dkeys_append (d₁ d₂ : Dict) : dkeys (d₁ ++ d₂) = dkeys d₁ ++ dkeys d₂ :=
  List.map_append _ d₁ d₂

theorem dkeys_dset_of_mem {d : Dict} {k : Key} (v : Val) (h : k ∈ dkeys d) :
    dkeys (dset d k v) = dkeys d := by
  induction d with
  | nil => simp [dkeys] at h
  | cons p rest ih =>
    unfold dset
    by_cases hpk : (p.1 == k) = true
    · simp only [hpk, if_pos]
      unfold dkeys
      simp only [List.map_cons]
      rw [beqKey_iff.mp hpk]
    · have hpk2 : (p.1 == k) = false := by
        cases hb : (p.1 == k)
        · rfl
        · exact absurd hb hpk
      have hk : k ∈ dkeys rest := by
        unfold dkeys at h
        simp only [List.map_cons, List.mem_cons] at h
        rcases h with h | h
        · exact absurd (beqKey_iff.mpr h.symm) hpk
        · exact h
      simp only [hpk2, Bool.false_eq_true, if_neg, not_false_iff]
      unfold dkeys at ih ⊢
      simp only [List.map_cons, ih hk]

theorem dlookup_dset_self (d : Dict) (k : Key) (v : Val) :
    dlookup (dset d k v) k = some v := by
  induction d with
  | nil => simp [dset, dlookup, List.find?_cons]
  | cons p rest ih =>
    unfold dset
    by_cases hpk : (p.1 == k) = true
    · simp [hpk, dlookup, List.find?_cons]
    · have hpk2 : (p.1 == k) = false := by
        cases hb : (p.1 == k)
        · rfl
        · exact absurd hb hpk
      simp only [hpk2, Bool.false_eq_true, if_neg, not_false_iff]
      unfold dlookup at ih ⊢
      simp only [List.find?_cons, hpk2]
      exact ih

theorem dlookup_dset_other {k k2 : Key} (d : Dict) (v : Val) (h : k2 ≠ k) :
    dlookup (dset d k v) k2 = dlookup d k2 := by
  have hkk2 : (k == k2) = false := by
    cases hb : (k == k2)
    · rfl
    · exact absurd (beqKey_iff.mp hb).symm h
  induction d with
  | nil => simp [dset, dlookup, List.find?_cons, hkk2]
  | cons p rest ih =>
    unfold dset
    by_cases hpk : (p.1 == k) = true
    · simp only [hpk, if_pos]
      unfold dlookup
      simp only [List.find?_cons, hkk2]
      have : (p.1 == k2) = false := by
        cases hb : (p.1 == k2)
        · rfl
        · exact absurd ((beqKey_iff.mp hb).symm.trans (beqKey_iff.mp hpk)) h
      rw [this]
    · have hpk2 : (p.1 == k) = false := by
        cases hb : (p.1 == k)
        · rfl
        · exact absurd hb hpk
      simp only [hpk2, Bool.false_eq_true, if_neg, not_false_iff]
      unfold dlookup at ih ⊢
      simp only [List.find?_cons]
      cases hb : (p.1 == k2)
      · exact ih
      · rfl

theorem contains_iff_memKey {l : List Key} {a : Key} : l.contains a = true ↔ a ∈ l :=
  List.elem_iff

theorem dlookup_const_map {l : List Key} {k : Key} (dv : Val) :
    dlookup (l.map (fun s => (s, dv))) k = if k ∈ l then some dv else none := by
  induction l with
  | nil => simp [dlookup]
  | cons s rest ih =>
    unfold dlookup at ih ⊢
    simp only [List.map_cons, List.find?_cons]
    by_cases hks : (s == k) = true
    · rw [hks]
      simp [beqKey_iff.mp hks]
    · have hks2 : (s == k) = false := by
        cases hb : (s == k)
        · rfl
        · exact absurd hb hks
      rw [hks2]
      have hne : k ≠ s := fun hc => hks (beqKey_iff.mpr hc.symm)
      simp only [List.mem_cons]
      rw [if_congr (Iff.intro (fun h => Or.inr h) (fun h => h.resolve_left hne))
        rfl rfl] at ih
      simpa [ih] using ih

theorem dkeys_infill_missing (ns : List Key) (dv : Val) (d : Dict) :
    dkeys (infill_missing ns dv d) =
      dkeys d ++ ns.filter (fun s => !((dkeys d).contains s)) := by
  unfold infill_missing
  rw [dkeys_append]
  unfold dkeys
  rw [List.map_map]
  rw [show (Prod.fst ∘ fun s : Key => (s, dv)) = id from rfl]
  rw [List.map_id]

theorem mem_dkeys_infill_missing {ns : List Key} {dv : Val} {d : Dict} {s : Key} :
    s ∈ dkeys (infill_missing ns dv d) ↔ s ∈ dkeys d ∨ s ∈ ns := by
  rw [dkeys_infill_missing]
  simp only [List.mem_append, List.mem_filter]
  constructor
  · rintro (h | ⟨h, _⟩)
    · exact Or.inl h
    · exact Or.inr h
  · rintro (h | h)
    · exact Or.inl h
    · by_cases hd : s ∈ dkeys d
      · exact Or.inl hd
      · exact Or.inr ⟨h, by simpa [contains_iff_memKey] using hd⟩

theorem infill_missing_eq_self {ns : List Key} {dv : Val} {d : Dict}
    (h : ∀ s ∈ ns, s ∈ dkeys d) : infill_missing ns dv d = d := by
  unfold infill_missing
  have : ns.filter (fun s => !((dkeys d).contains s)) = [] := by
    rw [List.filter_eq_nil_iff]
    intro s hs
    simp [contains_iff_memKey, h s hs]
  rw [this]
  simp

theorem dlookup_infill_missing_present {ns : List Key} {dv : Val} {d : Dict} {s : Key}
    (h : s ∈ dkeys d) :
    dlookup (infill_missing ns dv d) s = dlookup d s := by
  unfold infill_missing
  rw [dlookup_append, if_pos h]

theorem dlookup_infill_missing_absent {ns : List Key} {dv : Val} {d : Dict} {s : Key}
    (hns : s ∈ ns) (h : s ∉ dkeys d) :
    dlookup (infill_missing ns dv d) s = some dv := by
  unfold infill_missing
  rw [dlookup_append, if_neg h, dlookup_const_map]
  rw [if_pos (by simp only [List.mem_filter]; exact ⟨hns, by simpa [contains_iff_memKey] using h⟩)]

theorem is_correct_naming_iff {seg : SegmentationLevel} {ks : List Key} :
    is_correct_naming seg ks = true ↔
      (∀ k ∈ ks, k ∈ seg.segment_names) ∧ (∀ s ∈ seg.segment_names, s ∈ ks) := by
  unfold is_correct_naming
  rw [Bool.and_eq_true, List.all_eq_true, List.all_eq_true]
  constructor
  · intro ⟨h1, h2⟩
    exact ⟨fun k hk => contains_iff_memKey.mp (h1 k hk),
      fun s hs => contains_iff_memKey.mp (h2 s hs)⟩
  · intro ⟨h1, h2⟩
    exact ⟨fun k hk => contains_iff_memKey.mpr (h1 k hk),
      fun s hs => contains_iff_memKey.mpr (h2 s hs)⟩

theorem dict_to_dvec_ok {seg : SegmentationLevel} {zs : Option ZoningSystem} {infill : ℚ}
    {d : Dict} (hsub : ∀ k ∈ dkeys d, k ∈ seg.segment_names)
    (hz : zs ≠ none ∨ ∀ s ∈ seg.segment_names, s ∈ dkeys d) :
    dict_to_dvec seg zs infill d =
      .ok (infill_missing seg.segment_names (default_val zs infill) d) := by
  unfold dict_to_dvec
  have hguard : ¬(zs = none ∧
      seg.segment_names.filter (fun s => !((dkeys d).contains s)) ≠ []) := by
    rcases hz with h | h
    · exact fun hc => h hc.1
    · intro hc
      apply hc.2
      rw [List.filter_eq_nil_iff]
      intro s hs
      simp [contains_iff_memKey, h s hs]
  rw [if_neg hguard]
  rw [if_pos]
  rw [is_correct_naming_iff]
  constructor
  · intro k hk
    rcases mem_dkeys_infill_missing.mp hk with h | h
    · exact hsub k h
    · exact h
  · intro s hs
    exact mem_dkeys_infill_missing.mpr (Or.inr hs)

theorem make_ok {zs : Option ZoningSystem} {seg : SegmentationLevel} {d : Dict}
    {tf : Option TimeFormat} {infill : ℚ}
    (htf : seg.has_time_period_segments = true → tf ≠ none)
    (hsub : ∀ k ∈ dkeys d, k ∈ seg.segment_names)
    (hz : zs ≠ none ∨ ∀ s ∈ seg.segment_names, s ∈ dkeys d) :
    DVector.make zs seg d tf infill =
      .ok ⟨zs, seg, infill_missing seg.segment_names (default_val zs infill) d, tf⟩ := by
  unfold DVector.make validate_time_format
  rw [if_neg (by
    intro ⟨h1, h2⟩
    exact htf h1 h2)]
  rw [dict_to_dvec_ok hsub hz]

theorem make_ok_self {zs : Option ZoningSystem} {seg : SegmentationLevel} {d : Dict}
    {tf : Option TimeFormat} {infill : ℚ}
    (htf : seg.has_time_period_segments = true → tf ≠ none)
    (hsub : ∀ k ∈ dkeys d, k ∈ seg.segment_names)
    (hsup : ∀ s ∈ seg.segment_names, s ∈ dkeys d) :
    DVector.make zs seg d tf infill = .ok ⟨zs, seg, d, tf⟩ := by
  rw [make_ok htf hsub (Or.inr hsup), infill_missing_eq_self hsup]

theorem make_ok_elim {zs : Option ZoningSystem} {seg : SegmentationLevel} {d : Dict}
    {tf : Option TimeFormat} {infill : ℚ} {v : DVector}
    (h : DVector.make zs seg d tf infill = .ok v) :
    v = ⟨zs, seg, infill_missing seg.segment_names (default_val zs infill) d, tf⟩ := by
  unfold DVector.make validate_time_format dict_to_dvec at h
  by_cases h1 : seg.has_time_period_segments = true ∧ tf = none
  · rw [if_pos h1] at h
    exact absurd h (by simp)
  · rw [if_neg h1] at h
    by_cases hg : zs = none ∧
        seg.segment_names.filter (fun s => !((dkeys d).contains s)) ≠ []
    · rw [if_pos hg] at h
      exact absurd h (by simp)
    · rw [if_neg hg] at h
      by_cases h2 : is_correct_naming seg
          (dkeys (infill_missing seg.segment_names (default_val zs infill) d)) = true
      · simp only [h2, if_pos] at h
        simp only [Except.ok.injEq] at h
        exact h.symm
      · simp only [h2] at h
        exact absurd h (by simp)

theorem sum_zipWith_add {a b : List ℚ} (h : a.length = b.length) :
    (List.zipWith (fun x y => x + y) a b).sum = a.sum + b.sum := by
  induction a generalizing b with
  | nil =>
    cases b with
    | nil => simp
    | cons y ys => simp at h
  | cons x xs ih =>
    cases b with
    | nil => simp at h
    | cons y ys =>
      simp only [List.zipWith_cons_cons, List.sum_cons]
      rw [ih (by simpa using h)]
      ring

theorem length_zipWith_add {a b : List ℚ} (h : a.length = b.length) :
    (List.zipWith (fun x y => x + y) a b).length = a.length := by
  rw [List.length_zipWith, h, min_self]

theorem npSumAxis0_vsum {ls : List (List ℚ)} {L : ℕ} (h : ∀ l ∈ ls, l.length = L) :
    (npSumAxis0 ls).vsum = (ls.map List.sum).sum := by
  unfold npSumAxis0
  cases ls with
  | nil => simp [Val.vsum, Val.flatten]
  | cons l rest =>
    simp only [Val.vsum, Val.flatten, List.map_cons, List.sum_cons]
    have hgen : ∀ (rs : List (List ℚ)) (acc : List ℚ), acc.length = L →
        (∀ r ∈ rs, r.length = L) →
        (rs.foldl (fun acc x => List.zipWith (fun a b => a + b) acc x) acc).sum =
          acc.sum + (rs.map List.sum).sum := by
      intro rs
      induction rs with
      | nil => intro acc _ _; simp
      | cons r rs2 ih =>
        intro acc hacc hrs
        simp only [List.foldl_cons, List.map_cons, List.sum_cons]
        rw [ih _ (by rw [length_zipWith_add (by rw [hacc, hrs r (by simp)]), hacc])
          (fun x hx => hrs x (by simp [hx]))]
        rw [sum_zipWith_add (by rw [hacc, hrs r (by simp)])]
        ring
    rw [hgen rest l (h l (by simp)) (fun x hx => h x (by simp [hx]))]

theorem vsum_mul_scalar (v : Val) (c : ℚ) : (v.mul (.scalar c)).vsum = v.vsum * c := by
  cases v with
  | scalar q => simp [Val.mul, Val.vsum, Val.flatten]
  | arr xs =>
    simp only [Val.mul, Val.vsum, Val.flatten]
    induction xs with
    | nil => simp
    | cons x xs ih =>
      simp only [List.map_cons, List.sum_cons, ih]
      ring
  | pynone => simp [Val.mul, Val.vsum, Val.flatten]

theorem mul_scalar_mul_scalar (v : Val) (a b : ℚ) :
    (v.mul (.scalar a)).mul (.scalar b) = v.mul (.scalar (a * b)) := by
  cases v with
  | scalar q => simp [Val.mul]; ring
  | arr xs =>
    simp only [Val.mul, Val.arr.injEq, List.map_map]
    apply List.map_congr_left
    intro x _
    simp [Function.comp]
    ring
  | pynone => simp [Val.mul]

theorem mul_scalar_one (v : Val) : v.mul (.scalar 1) = v := by
  cases v with
  | scalar q => simp [Val.mul]
  | arr xs => simp [Val.mul]
  | pynone => simp [Val.mul]

theorem dict_ext {d₁ d₂ : Dict} (hk : dkeys d₁ = dkeys d₂) (hnd : (dkeys d₁).Nodup)
    (hl : ∀ k, dlookup d₁ k = dlookup d₂ k) : d₁ = d₂ := by
  induction d₁ generalizing d₂ with
  | nil =>
    cases d₂ with
    | nil => rfl
    | cons p rest => simp [dkeys] at hk
  | cons p rest ih =>
    cases d₂ with
    | nil => simp [dkeys] at hk
    | cons q rest2 =>
      unfold dkeys at hk
      simp only [List.map_cons, List.cons.injEq] at hk
      have hpq : p = q := by
        have h1 := hl p.1
        unfold dlookup at h1
        simp only [List.find?_cons, beq_self_eq_true] at h1
        rw [hk.1] at h1
        simp only [beq_self_eq_true, Option.map_some'] at h1
        obtain ⟨pa, pb⟩ := p
        obtain ⟨qa, qb⟩ := q
        simp only at hk h1
        simp only [Option.some.injEq] at h1
        simp [hk.1, h1]
      refine List.cons_eq_cons.mpr ⟨hpq, ih ?_ ?_ ?_⟩
      · exact hk.2
      · unfold dkeys at hnd ⊢
        simp only [List.map_cons, List.nodup_cons] at hnd
        exact hnd.2
      · intro k
        by_cases hkp : k = p.1
        · subst hkp
          have hkn : p.1 ∉ dkeys rest := by
            unfold dkeys at hnd
            simp only [List.map_cons, List.nodup_cons] at hnd
            exact hnd.1
          have hkn2 : p.1 ∉ dkeys rest2 := by unfold dkeys; rw [← hk.2]; exact hkn
          rw [dlookup_eq_none_iff.mpr hkn, dlookup_eq_none_iff.mpr hkn2]
        · have h1 := hl k
          unfold dlookup at h1 ⊢
          have hbp : (p.1 == k) = false := by
            cases hb : (p.1 == k)
            · rfl
            · exact absurd (beqKey_iff.mp hb).symm hkp
          have hbq : (q.1 == k) = false := by rw [← hk.1]; exact hbp
          rw [List.find?_cons, hbp] at h1
          rw [List.find?_cons, hbq] at h1
          exact h1

theorem mul_ok_zoning {md : List (Key × Key × Key)} {mseg : SegmentationLevel}
    {a b d : DVector} (h : DVector.mul md mseg a b = .ok d) :
    mulZoning a.zoning_system b.zoning_system = .ok d.zoning_system := by
  unfold DVector.mul at h
  cases hz : mulZoning a.zoning_system b.zoning_system with
  | error e => rw [hz] at h; exact absurd h (by simp)
  | ok rz =>
    rw [hz] at h
    cases hm : pairwise_mul_data md a.data b.data with
    | error e => rw [hm] at h; exact absurd h (by simp)
    | ok dd =>
      rw [hm] at h
      rw [make_ok_elim h]

/-- C7: zoning compatibility of `a * b` — identical zonings are kept; a
zoneless operand defers to the other operand's zoning; two zoneless
operands give a zoneless result; two different non-null zonings raise a
`ZoningError` before any result is produced. -/
theorem C7_mul_zoning_compatibility (md : List (Key × Key × Key)) (mseg : SegmentationLevel)
    (a b : DVector) :
    (∀ d : DVector, a.zoning_system = b.zoning_system → DVector.mul md mseg a b = .ok d →
      d.zoning_system = a.zoning_system) ∧
    (∀ d : DVector, a.zoning_system = none → DVector.mul md mseg a b = .ok d →
      d.zoning_system = b.zoning_system) ∧
    (∀ d : DVector, b.zoning_system = none → DVector.mul md mseg a b = .ok d →
      d.zoning_system = a.zoning_system) ∧
    (a.zoning_system ≠ b.zoning_system → a.zoning_system ≠ none → b.zoning_system ≠ none →
      ∃ msg, DVector.mul md mseg a b = .error (.zoningError msg)) := by
  refine ⟨?_, ?_, ?_, ?_⟩
  · intro d heq hok
    have hz := mul_ok_zoning hok
    unfold mulZoning at hz
    rw [if_pos heq] at hz
    simp only [Except.ok.injEq] at hz
    exact hz.symm
  · intro d han hok
    have hz := mul_ok_zoning hok
    unfold mulZoning at hz
    by_cases heq : a.zoning_system = b.zoning_system
    · rw [if_pos heq] at hz
      simp only [Except.ok.injEq] at hz
      rw [← hz, heq]
    · rw [if_neg heq, if_pos han] at hz
      simp only [Except.ok.injEq] at hz
      exact hz.symm
  · intro d hbn hok
    have hz := mul_ok_zoning hok
    unfold mulZoning at hz
    by_cases heq : a.zoning_system = b.zoning_system
    · rw [if_pos heq] at hz
      simp only [Except.ok.injEq] at hz
      exact hz.symm
    · have han : a.zoning_system ≠ none := fun hc => heq (hc.trans hbn.symm)
      rw [if_neg heq, if_neg han, if_pos hbn] at hz
      simp only [Except.ok.injEq] at hz
      exact hz.symm
  · intro hne han hbn
    refine ⟨"Cannot multiply two Dvectors using different zoning systems.", ?_⟩
    unfold DVector.mul mulZoning
    rw [if_neg hne, if_neg han, if_neg hbn]

theorem C7_witness :
    dvZonedA.zoning_system ≠ dvZoned.zoning_system ∧
    dvZonedA.zoning_system ≠ none ∧ dvZoned.zoning_system ≠ none ∧
    (∃ msg, DVector.mul mdMX segMX dvZonedA dvZoned = .error (.zoningError msg)) :=
  ⟨by decide, by decide, by decide,
    (C7_mul_zoning_compatibility mdMX segMX dvZonedA dvZoned).2.2.2
      (by decide) (by decide) (by decide)⟩

theorem make_tp_none_error {zs : Option ZoningSystem} {seg : SegmentationLevel} {d : Dict}
    {infill : ℚ} (htp : seg.has_time_period_segments = true) :
    DVector.make zs seg d none infill =
      .error (.valueError "time periods in segmentation but time format not defined") := by
  unfold DVector.make validate_time_format
  rw [if_pos ⟨htp, rfl⟩]

theorem expand_build_ok_elim {ed : List (Key × Key × Key)} {rs : SegmentationLevel}
    {self expansion_dvec d : DVector}
    (h : expand_build ed rs self expansion_dvec = .ok d) :
    d.time_format = none ∧ d.segmentation = rs ∧ d.zoning_system = self.zoning_system := by
  unfold expand_build at h
  cases hz : self.zoning_system with
  | some z =>
    simp only [hz] at h
    by_cases hc : expansion_dvec.zoning_system = some z ∨ expansion_dvec.zoning_system = none
    · rw [if_pos hc] at h
      cases hm : pairwise_mul_data ed self.data expansion_dvec.data with
      | error e => simp only [hm] at h; exact absurd h (by simp)
      | ok dd =>
        simp only [hm] at h
        rw [make_ok_elim h]
        exact ⟨rfl, rfl, rfl⟩
    · rw [if_neg hc] at h; exact absurd h (by simp)
  | none =>
    simp only [hz] at h
    cases hm : pairwise_mul_data ed self.data expansion_dvec.data with
    | error e => simp only [hm] at h; exact absurd h (by simp)
    | ok dd =>
      simp only [hm] at h
      rw [make_ok_elim h]
      exact ⟨rfl, rfl, rfl⟩

/-- C4: whenever `expand_segmentation` returns a vector, its total is
close to the original total under the default tolerances (`rel_tol =
0.0001`, `abs_tol = 0`); whenever the built expansion's total is not
close, the call raises a `ValueError` instead of returning. -/
theorem C4_expand_mass_check (ed : List (Key × Key × Key)) (rs : SegmentationLevel)
    (self expansion_dvec : DVector) :
    (∀ d : DVector, DVector.expand_segmentation ed rs self expansion_dvec = .ok d →
      self.sum_is_close d (1/10000) 0 = true) ∧
    (∀ d : DVector, expand_build ed rs self expansion_dvec = .ok d →
      self.sum_is_close d (1/10000) 0 = false →
      DVector.expand_segmentation ed rs self expansion_dvec =
        .error (.valueError "Error when expanding DVector. Before and after totals do not match")) := by
  constructor
  · intro d hok
    unfold DVector.expand_segmentation at hok
    cases hb : expand_build ed rs self expansion_dvec with
    | error e => simp only [hb] at hok; exact absurd hok (by simp)
    | ok dd =>
      simp only [hb] at hok
      by_cases hc : self.sum_is_close dd (1/10000) 0 = true
      · rw [if_pos hc] at hok
        simp only [Except.ok.injEq] at hok
        rw [← hok]
        exact hc
      · rw [if_neg hc] at hok
        exact absurd hok (by simp)
  · intro d hb hc
    unfold DVector.expand_segmentation
    simp only [hb]
    have hne : ¬ (self.sum_is_close d (1/10000) 0 = true) := by
      rw [hc]
      exact Bool.false_ne_true
    rw [if_neg hne]

theorem C4_witness :
    (DVector.expand_segmentation edAE segAE dvSelfExp dvWgood = .ok dvExpGood ∧
      dvSelfExp.sum_is_close dvExpGood (1/10000) 0 = true) ∧
    (expand_build edAE segAE dvSelfExp dvWbad = .ok dvExpBad ∧
      DVector.expand_segmentation edAE segAE dvSelfExp dvWbad =
        .error (.valueError "Error when expanding DVector. Before and after totals do not match")) :=
  ⟨⟨by decide, (C4_expand_mass_check edAE segAE dvSelfExp dvWgood).1 dvExpGood (by decide)⟩,
    ⟨by decide, (C4_expand_mass_check edAE segAE dvSelfExp dvWbad).2 dvExpBad
      (by decide) (by decide)⟩⟩

/-- C10: a vector returned by `expand_segmentation` always has
`time_format = None` (the expanded DVector is constructed without a
time-format argument), and if the expanded segmentation carries
time-period segments the construction raises instead of returning. -/
theorem C10_expand_time_format (ed : List (Key × Key × Key)) (rs : SegmentationLevel)
    (self expansion_dvec : DVector) :
    (∀ d : DVector, DVector.expand_segmentation ed rs self expansion_dvec = .ok d →
      d.time_format = none) ∧
    (rs.has_time_period_segments = true →
      ∀ d : DVector, DVector.expand_segmentation ed rs self expansion_dvec ≠ .ok d) := by
  have hbuild : ∀ d : DVector, expand_build ed rs self expansion_dvec = .ok d →
      d.time_format = none := fun d h => (expand_build_ok_elim h).1
  constructor
  · intro d hok
    unfold DVector.expand_segmentation at hok
    cases hb : expand_build ed rs self expansion_dvec with
    | error e => simp only [hb] at hok; exact absurd hok (by simp)
    | ok dd =>
      simp only [hb] at hok
      by_cases hc : self.sum_is_close dd (1/10000) 0 = true
      · rw [if_pos hc] at hok
        simp only [Except.ok.injEq] at hok
        rw [← hok]
        exact hbuild dd hb
      · rw [if_neg hc] at hok
        exact absurd hok (by simp)
  · intro htp d hok
    have hnotok : ∀ d2 : DVector, expand_build ed rs self expansion_dvec ≠ .ok d2 := by
      intro d2 h2
      unfold expand_build at h2
      cases hz : self.zoning_system with
      | some z =>
        simp only [hz] at h2
        by_cases hc : expansion_dvec.zoning_system = some z ∨ expansion_dvec.zoning_system = none
        · rw [if_pos hc] at h2
          cases hm : pairwise_mul_data ed self.data expansion_dvec.data with
          | error e => simp only [hm] at h2; exact absurd h2 (by simp)
          | ok dd =>
            simp only [hm] at h2
            rw [make_tp_none_error htp] at h2
            exact absurd h2 (by simp)
        · rw [if_neg hc] at h2; exact absurd h2 (by simp)
      | none =>
        simp only [hz] at h2
        cases hm : pairwise_mul_data ed self.data expansion_dvec.data with
        | error e => simp only [hm] at h2; exact absurd h2 (by simp)
        | ok dd =>
          simp only [hm] at h2
          rw [make_tp_none_error htp] at h2
          exact absurd h2 (by simp)
    unfold DVector.expand_segmentation at hok
    cases hb : expand_build ed rs self expansion_dvec with
    | error e => simp only [hb] at hok; exact absurd hok (by simp)
    | ok dd => exact hnotok dd hb

theorem C10_witness :
    dvExpGood.time_format = none ∧
    DVector.expand_segmentation edAE segAEtp dvSelfExp dvWgood ≠ .ok dvExpGood :=
  ⟨(C10_expand_time_format edAE segAE dvSelfExp dvWgood).1 dvExpGood (by decide),
    (C10_expand_time_format edAE segAEtp dvSelfExp dvWgood).2 (by decide) dvExpGood⟩

/-- C9 (amended): constructing a DVector from a segment-keyed dictionary
takes no copy of the caller's mapping.  When a zoning system is present
(or nothing is missing), `_dict_to_dvec` assigns every missing valid
segment into the referenced dictionary object itself, returns that same
reference as the new vector's data, leaves the caller's pre-existing
entries untouched and every other heap object unchanged; afterwards the
caller's dictionary key set equals the segmentation's full segment-name
set.  With a null zoning system and a missing segment the infill loop
instead raises AttributeError (`default_val.copy()` on a plain number)
before inserting anything — see the counterexample. -/
theorem C9_dict_constructor_mutates_in_place (seg : SegmentationLevel)
    (zs : Option ZoningSystem) (infill : ℚ) (st : Store) (r : ℕ) (d0 : Dict)
    (hget : storeGet st r = some d0)
    (hsub : ∀ k ∈ dkeys d0, k ∈ seg.segment_names)
    (hz : zs ≠ none ∨ ∀ s ∈ seg.segment_names, s ∈ dkeys d0) :
    dict_to_dvec_store seg zs infill st r =
      .ok (storeSet st r (infill_missing seg.segment_names (default_val zs infill) d0), r) ∧
    (∀ s : Key, s ∈ dkeys (infill_missing seg.segment_names (default_val zs infill) d0) ↔
      s ∈ seg.segment_names) ∧
    (∀ s ∈ seg.segment_names, s ∉ dkeys d0 →
      dlookup (infill_missing seg.segment_names (default_val zs infill) d0) s =
        some (default_val zs infill)) ∧
    (∀ k ∈ dkeys d0, dlookup (infill_missing seg.segment_names (default_val zs infill) d0) k =
      dlookup d0 k) ∧
    (∀ r2 : ℕ, r2 ≠ r →
      storeGet (storeSet st r (infill_missing seg.segment_names (default_val zs infill) d0)) r2 =
        storeGet st r2) := by
  refine ⟨?_, ?_, ?_, ?_, ?_⟩
  · unfold dict_to_dvec_store
    simp only [hget]
    have hguard : ¬(zs = none ∧
        seg.segment_names.filter (fun s => !((dkeys d0).contains s)) ≠ []) := by
      rcases hz with h | h
      · exact fun hc => h hc.1
      · intro hc
        apply hc.2
        rw [List.filter_eq_nil_iff]
        intro s hs
        simp [contains_iff_memKey, h s hs]
    rw [if_neg hguard]
    rw [if_pos]
    rw [is_correct_naming_iff]
    constructor
    · intro k hk
      rcases mem_dkeys_infill_missing.mp hk with h | h
      · exact hsub k h
      · exact h
    · intro s hs
      exact mem_dkeys_infill_missing.mpr (Or.inr hs)
  · intro s
    rw [mem_dkeys_infill_missing]
    constructor
    · rintro (h | h)
      · exact hsub s h
      · exact h
    · exact Or.inr
  · intro s hs hnot
    exact dlookup_infill_missing_absent hs hnot
  · intro k hk
    exact dlookup_infill_missing_present hk
  · intro r2 hne
    unfold storeGet storeSet
    rw [List.get?_eq_getElem?, List.get?_eq_getElem?]
    exact List.getElem?_set_ne (fun hc => hne hc.symm)

theorem C9_witness :
    storeGet [[("p", Val.arr [1, 2])]] 0 = some [("p", Val.arr [1, 2])] ∧
    dict_to_dvec_store segPair (some zsA) 0 [[("p", Val.arr [1, 2])]] 0 =
      .ok ([[("p", Val.arr [1, 2]), ("q", Val.arr [0, 0])]], 0) ∧
    (∀ s : Key, s ∈ dkeys [("p", Val.arr [1, 2]), ("q", Val.arr [0, 0])] ↔
      s ∈ segPair.segment_names) := by
  have h := C9_dict_constructor_mutates_in_place segPair (some zsA) 0
    [[("p", Val.arr [1, 2])]] 0 [("p", Val.arr [1, 2])] (by decide) (by decide)
    (Or.inl (by decide))
  refine ⟨by decide, ?_, ?_⟩
  · have h1 := h.1
    rwa [show infill_missing segPair.segment_names (default_val (some zsA) 0)
      [("p", Val.arr [1, 2])] = [("p", Val.arr [1, 2]), ("q", Val.arr [0, 0])] by decide,
      show storeSet [[("p", Val.arr [1, 2])]] 0
        [("p", Val.arr [1, 2]), ("q", Val.arr [0, 0])] =
        [[("p", Val.arr [1, 2]), ("q", Val.arr [0, 0])]] by decide] at h1
  · have h2 := h.2.1
    rwa [show infill_missing segPair.segment_names (default_val (some zsA) 0)
      [("p", Val.arr [1, 2])] = [("p", Val.arr [1, 2]), ("q", Val.arr [0, 0])] by decide] at h2

/-- C9 counterexample to the claim as stated: with a null zoning system
and a valid-subset dictionary that misses a segment, the constructor
raises AttributeError (plain-number `default_val` has no `.copy`) instead
of inserting the missing segments, so the caller's key set never becomes
the full segment-name set. -/
theorem C9_counterexample :
    ("q" ∈ segPair.segment_names ∧ "q" ∉ dkeys [("p", Val.scalar 1)]) ∧
    dict_to_dvec_store segPair none 0 [[("p", Val.scalar 1)]] 0 =
      .error .attributeError :=
  ⟨by decide, by decide⟩

theorem qabs_nonneg (q : ℚ) : 0 ≤ qabs q := by
  unfold qabs
  by_cases h : q < 0
  · rw [if_pos h]; linarith
  · rw [if_neg h]; linarith

theorem isClose_self {a rel_tol abs_tol : ℚ} (hrel : 0 ≤ rel_tol) (habs : 0 ≤ abs_tol) :
    isClose a a rel_tol abs_tol = true := by
  unfold isClose
  rw [decide_eq_true_eq]
  have h1 : qabs (a - a) = 0 := by
    rw [sub_self]
    unfold qabs
    rw [if_neg (by linarith)]
  rw [h1]
  unfold qmax
  by_cases h2 : rel_tol * (if qabs a ≤ qabs a then qabs a else qabs a) ≤ abs_tol
  · rw [if_pos h2]; exact habs
  · rw [if_neg h2]
    have := qabs_nonneg a
    by_cases h3 : qabs a ≤ qabs a
    · rw [if_pos h3]; positivity
    · rw [if_neg h3]; positivity

theorem default_val_zero_sum (zs : Option ZoningSystem) :
    (default_val zs 0).flatten.sum = 0 := by
  cases zs with
  | none => simp [default_val, Val.flatten]
  | some z =>
    simp only [default_val, Val.flatten]
    rw [List.sum_replicate]
    simp

theorem sum_map_infill_zero (ns : List Key) (zs : Option ZoningSystem) (d : Dict) :
    ((infill_missing ns (default_val zs 0) d).map (fun kv => kv.2.flatten.sum)).sum =
      (d.map (fun kv => kv.2.flatten.sum)).sum := by
  unfold infill_missing
  rw [List.map_append, List.sum_append, List.map_map]
  have : ∀ x ∈ (ns.filter (fun s => !((dkeys d).contains s))).map
      ((fun kv : Key × Val => kv.2.flatten.sum) ∘ fun s => (s, default_val zs 0)), x = 0 := by
    intro x hx
    rcases List.mem_map.mp hx with ⟨s, _, hs⟩
    rw [← hs]
    simp only [Function.comp]
    exact default_val_zero_sum zs
  rw [List.sum_eq_zero this]
  ring

theorem lookup_mapE_vals {dat : Dict} {L : ℕ}
    (hlen : ∀ kv ∈ dat, (Val.flatten kv.2).length = L) :
    ∀ {segs : List Key} {vals : List Val},
      mapE (fun s =>
        match dlookup dat s with
        | some w => .ok w
        | none => .error .keyError) segs = .ok vals →
      (∀ w ∈ vals, w.flatten.length = L) ∧
      vals.map (fun w => w.flatten.sum) =
        segs.map (fun s => ((dlookup dat s).getD Val.pynone).flatten.sum) := by
  intro segs
  induction segs with
  | nil =>
    intro vals h
    simp only [mapE, Except.ok.injEq] at h
    subst h
    exact ⟨by intro w hw; simp at hw, by simp⟩
  | cons s rest ih =>
    intro vals h
    simp only [mapE] at h
    cases hl : dlookup dat s with
    | none => simp only [hl] at h; exact absurd h (by simp)
    | some w =>
      simp only [hl] at h
      cases hrest : mapE (fun s =>
          match dlookup dat s with
          | some w => .ok w
          | none => .error .keyError) rest with
      | error e => rw [hrest] at h; exact absurd h (by simp)
      | ok vs =>
        rw [hrest] at h
        simp only [Except.ok.injEq] at h
        subst h
        obtain ⟨ih1, ih2⟩ := ih hrest
        constructor
        · intro w2 hw2
          rcases List.mem_cons.mp hw2 with hw2 | hw2
          · subst hw2
            exact hlen (s, w2) (dlookup_mem hl)
          · exact ih1 w2 hw2
        · simp only [List.map_cons, hl, Option.getD_some, ih2]

theorem aggregate_data_sum {dat : Dict} {L : ℕ}
    (hlen : ∀ kv ∈ dat, (Val.flatten kv.2).length = L) :
    ∀ {ad : List (Key × List Key)} {d0 : Dict}, aggregate_data ad dat = .ok d0 →
      (d0.map (fun kv => kv.2.flatten.sum)).sum =
        (((ad.map Prod.snd).flatten).map
          (fun s => ((dlookup dat s).getD Val.pynone).flatten.sum)).sum := by
  intro ad
  induction ad with
  | nil =>
    intro d0 h
    simp only [aggregate_data, mapE, Except.ok.injEq] at h
    subst h
    simp
  | cons e rest ih =>
    intro d0 h
    simp only [aggregate_data, mapE] at h
    cases hinner : mapE (fun s =>
        match dlookup dat s with
        | some w => .ok w
        | none => .error .keyError) e.2 with
    | error err => rw [hinner] at h; exact absurd h (by simp)
    | ok vals =>
      rw [hinner] at h
      cases hrest : mapE (fun e2 =>
          match mapE (fun s =>
              match dlookup dat s with
              | some w => .ok w
              | none => .error .keyError) e2.2 with
          | .error err => .error err
          | .ok vals => .ok (e2.1, npSumAxis0 (vals.map Val.flatten))) rest with
      | error err => rw [hrest] at h; exact absurd h (by simp)
      | ok ds =>
        rw [hrest] at h
        simp only [Except.ok.injEq] at h
        subst h
        obtain ⟨hvl, hvs⟩ := lookup_mapE_vals hlen hinner
        have hsum : (npSumAxis0 (vals.map Val.flatten)).flatten.sum =
            (e.2.map (fun s => ((dlookup dat s).getD Val.pynone).flatten.sum)).sum := by
          have hlens : ∀ l ∈ vals.map Val.flatten, l.length = L := by
            intro l hl
            rcases List.mem_map.mp hl with ⟨w, hw, hwl⟩
            rw [← hwl]
            exact hvl w hw
          have h1 := npSumAxis0_vsum hlens
          unfold Val.vsum at h1
          rw [h1, List.map_map]
          rw [show (List.sum ∘ Val.flatten) = (fun w : Val => w.flatten.sum) from rfl]
          rw [hvs]
        simp only [List.map_cons, List.sum_cons, List.flatten, List.map_append,
          List.sum_append]
        rw [hsum, ih hrest]
  
theorem map_over_keys (f : Val → ℚ) :
    ∀ {d : Dict}, (dkeys d).Nodup →
      (dkeys d).map (fun k => f ((dlookup d k).getD Val.pynone)) =
        d.map (fun kv => f kv.2) := by
  intro d
  induction d with
  | nil => intro _; rfl
  | cons p rest ih =>
    intro hnd
    unfold dkeys at hnd ⊢
    simp only [List.map_cons, List.nodup_cons] at hnd ⊢
    refine List.cons_eq_cons.mpr ⟨?_, ?_⟩
    · unfold dlookup
      simp [List.find?_cons]
    · rw [← ih hnd.2]
      apply List.map_congr_left
      intro k hk
      have hne : p.1 ≠ k := by
        intro hc
        exact hnd.1 (hc ▸ hk)
      unfold dlookup
      simp only [List.find?_cons]
      have : (p.1 == k) = false := by
        cases hb : (p.1 == k)
        · rfl
        · exact absurd (beqKey_iff.mp hb) hne
      rw [this]

/-- C2: aggregation is mass-preserving.  For every DVector and every
aggregation mapping that partitions its segment keys, the aggregated
vector's `sum()` equals the original `sum()` — exactly, in the
exact-rational model, hence in particular within the claim's relative
tolerance of 1e-6. -/
theorem C2_aggregate_mass_conservation (aggregation_dict : List (Key × List Key))
    (out_segmentation : SegmentationLevel) (v : DVector) (L : ℕ)
    (hlen : ∀ kv ∈ v.data, (Val.flatten kv.2).length = L)
    (hnd : (dkeys v.data).Nodup)
    (hpart : ((aggregation_dict.map Prod.snd).flatten).Perm (dkeys v.data)) :
    ∀ d : DVector, DVector.aggregate aggregation_dict out_segmentation v = .ok d →
      d.sum = v.sum ∧ isClose d.sum v.sum (1/1000000) 0 = true := by
  intro d hok
  unfold DVector.aggregate at hok
  cases hagg : aggregate_data aggregation_dict v.data with
  | error e => simp only [hagg] at hok; exact absurd hok (by simp)
  | ok d0 =>
    simp only [hagg] at hok
    have hd := make_ok_elim hok
    have hsum : d.sum = v.sum := by
      rw [hd]
      unfold DVector.sum
      simp only
      rw [sum_map_infill_zero]
      rw [aggregate_data_sum hlen hagg]
      have hperm := hpart.map (fun s => ((dlookup v.data s).getD Val.pynone).flatten.sum)
      rw [hperm.sum_eq]
      exact congrArg List.sum (map_over_keys (fun w => w.flatten.sum) hnd)
    exact ⟨hsum, by rw [hsum]; exact isClose_self (by norm_num) (by norm_num)⟩

theorem C2_witness :
    (∀ kv ∈ dvAgg.data, (Val.flatten kv.2).length = 2) ∧
    (dkeys dvAgg.data).Nodup ∧
    ((adPair.map Prod.snd).flatten).Perm (dkeys dvAgg.data) ∧
    (∃ d : DVector, DVector.aggregate adPair segOut dvAgg = .ok d ∧
      d.sum = dvAgg.sum ∧ isClose d.sum dvAgg.sum (1/1000000) 0 = true) := by
  refine ⟨by decide, by decide, by decide, ?_⟩
  refine ⟨⟨some zsA, segOut, [("out", Val.arr [4, 6])], none⟩, ?_⟩
  have hok : DVector.aggregate adPair segOut dvAgg =
      .ok ⟨some zsA, segOut, [("out", Val.arr [4, 6])], none⟩ := by decide
  exact ⟨hok, C2_aggregate_mass_conservation adPair segOut dvAgg 2
    (by decide) (by decide) (by decide) _ hok⟩

theorem dlookup_keyfun_map (h : Key → Val) :
    ∀ (l : List Key) (k : Key),
      dlookup (l.map (fun s => (s, h s))) k = if k ∈ l then some (h k) else none := by
  intro l
  induction l with
  | nil => intro k; simp [dlookup]
  | cons s rest ih =>
    intro k
    unfold dlookup at ih ⊢
    simp only [List.map_cons, List.find?_cons]
    by_cases hks : (s == k) = true
    · rw [hks]
      have := beqKey_iff.mp hks
      subst this
      simp
    · have hks2 : (s == k) = false := by
        cases hb : (s == k)
        · rfl
        · exact absurd hb hks
      rw [hks2]
      have hne : k ≠ s := fun hc => hks (beqKey_iff.mpr hc.symm)
      rw [ih k]
      by_cases hk : k ∈ rest
      · rw [if_pos hk, if_pos (by simp [hk])]
      · rw [if_neg hk, if_neg (by simp [hne, hk])]

theorem infill_nonpos_pos {infill : ℚ} (hpos : 0 < infill) (v : Val) :
    ∀ x ∈ (infill_nonpos infill v).flatten, 0 < x := by
  cases v with
  | scalar q =>
    intro x hx
    simp only [infill_nonpos, Val.flatten, List.mem_singleton] at hx
    subst hx
    by_cases h : q ≤ 0
    · rw [if_pos h]; exact hpos
    · rw [if_neg h]; linarith
  | arr xs =>
    intro x hx
    simp only [infill_nonpos, Val.flatten] at hx
    rcases List.mem_map.mp hx with ⟨y, _, hy⟩
    subst hy
    by_cases h : y ≤ 0
    · rw [if_pos h]; exact hpos
    · rw [if_neg h]; linarith
  | pynone => intro x hx; simp [infill_nonpos, Val.flatten] at hx

theorem infill_nonpos_id_of_pos {infill : ℚ} {v : Val}
    (hpos : ∀ x ∈ v.flatten, 0 < x) : infill_nonpos infill v = v := by
  cases v with
  | scalar q =>
    have := hpos q (by simp [Val.flatten])
    simp only [infill_nonpos]
    rw [if_neg (by linarith)]
  | arr xs =>
    simp only [infill_nonpos, Val.arr.injEq]
    have : ∀ x ∈ xs, (if x ≤ 0 then infill else x) = x := by
      intro x hx
      have := hpos x (by simpa [Val.flatten] using hx)
      rw [if_neg (by linarith)]
    calc xs.map (fun x => if x ≤ 0 then infill else x)
        = xs.map id := List.map_congr_left (fun x hx => this x hx)
      _ = xs := List.map_id xs
  | pynone => rfl

theorem zero_infill_pos : (0 : ℚ) < zero_infill := by
  unfold zero_infill
  norm_num

theorem infill_nonpos_flatten_length (infill : ℚ) (v : Val) :
    ((infill_nonpos infill v).flatten).length = v.flatten.length := by
  cases v <;> simp [infill_nonpos, Val.flatten]

/-- C5 (amended): for operands with the same segmentation,
`balance_at_segments` (without the weekday/weekend option) gives, for
every segment, a result whose sum over zones equals the sum of **the
epsilon-infilled** other — the code infills nonpositive *entries* (not
nonpositive sums) of both operands with `_zero_infill = 1e-10` before
summing; consequently the result's per-segment sum equals
`sum(other[segment])` exactly whenever all of other's entries for that
segment are positive, but not in general.  A segmentation-name mismatch
is rejected with a `ValueError`. -/
theorem C5_balance_at_segments_amended (self other : DVector) :
    (self.segmentation = other.segmentation →
      (other.segmentation.has_time_period_segments = true → self.time_format ≠ none) →
      (∀ s ∈ self.segmentation.segment_names,
        ∃ sd od, dlookup self.data s = some sd ∧ dlookup other.data s = some od ∧
          ((∃ a b, sd = Val.scalar a ∧ od = Val.scalar b) ∨
           (∃ xs ys, sd = Val.arr xs ∧ od = Val.arr ys ∧ xs.length = ys.length))) →
      ∃ d : DVector, DVector.balance_at_segments self other = .ok d ∧
        ∀ s ∈ self.segmentation.segment_names,
          segment_total d s =
            (infill_nonpos zero_infill (dlookupD other.data s)).vsum ∧
          ((∀ x ∈ (dlookupD other.data s).flatten, 0 < x) →
            segment_total d s = segment_total other s)) ∧
    (self.segmentation.name ≠ other.segmentation.name →
      DVector.balance_at_segments self other =
        .error (.valueError "Segmentation of both DVectors does not match!")) := by
  constructor
  · intro hseg htf hvals
    have hdata : balance_data self other =
        .ok (self.segmentation.segment_names.map (fun s =>
          (s, (infill_nonpos zero_infill (dlookupD self.data s)).mul
            (.scalar ((infill_nonpos zero_infill (dlookupD other.data s)).vsum /
              (infill_nonpos zero_infill (dlookupD self.data s)).vsum))))) := by
      unfold balance_data
      apply mapE_eq_ok_of
      intro s hs
      obtain ⟨sd, od, hsd, hod, _⟩ := hvals s hs
      simp [hsd, hod, dlookupD]
    have hkeys : dkeys (self.segmentation.segment_names.map (fun s =>
        (s, (infill_nonpos zero_infill (dlookupD self.data s)).mul
          (.scalar ((infill_nonpos zero_infill (dlookupD other.data s)).vsum /
            (infill_nonpos zero_infill (dlookupD self.data s)).vsum))))) =
        self.segmentation.segment_names := by
      unfold dkeys
      rw [List.map_map]
      rw [show ∀ h : Key → Val, (Prod.fst ∘ fun s : Key => (s, h s)) = id from fun h => rfl]
      exact List.map_id _
    refine ⟨⟨self.zoning_system, other.segmentation,
      self.segmentation.segment_names.map (fun s =>
        (s, (infill_nonpos zero_infill (dlookupD self.data s)).mul
          (.scalar ((infill_nonpos zero_infill (dlookupD other.data s)).vsum /
            (infill_nonpos zero_infill (dlookupD self.data s)).vsum)))),
      self.time_format⟩, ?_, ?_⟩
    · unfold DVector.balance_at_segments
      rw [if_neg (fun hc => hc (by rw [hseg]))]
      simp only [hdata]
      exact make_ok_self htf
        (by intro k hk; rw [hkeys] at hk; rw [← hseg]; exact hk)
        (by intro s hs; rw [hkeys]; rw [← hseg] at hs; exact hs)
    · intro s hs
      have hlook : segment_total (⟨self.zoning_system, other.segmentation,
          self.segmentation.segment_names.map (fun s =>
            (s, (infill_nonpos zero_infill (dlookupD self.data s)).mul
              (.scalar ((infill_nonpos zero_infill (dlookupD other.data s)).vsum /
                (infill_nonpos zero_infill (dlookupD self.data s)).vsum)))),
          self.time_format⟩ : DVector) s =
          ((infill_nonpos zero_infill (dlookupD self.data s)).mul
            (.scalar ((infill_nonpos zero_infill (dlookupD other.data s)).vsum /
              (infill_nonpos zero_infill (dlookupD self.data s)).vsum))).vsum := by
        unfold segment_total
        rw [dlookup_keyfun_map _ _ s, if_pos hs]
        rfl
      obtain ⟨sd, od, hsd, hod, hshape⟩ := hvals s hs
      have hdl1 : dlookupD self.data s = sd := by unfold dlookupD; rw [hsd]; rfl
      have hdl2 : dlookupD other.data s = od := by unfold dlookupD; rw [hod]; rfl
      have hkey : ∀ sv ov : ℚ, (0 < sv ∨ (sv = 0 ∧ ov = 0)) → sv * (ov / sv) = ov := by
        rintro sv ov (h | ⟨h1, h2⟩)
        · field_simp
        · rw [h1, h2]; simp
      have hcase : 0 < (infill_nonpos zero_infill sd).vsum ∨
          ((infill_nonpos zero_infill sd).vsum = 0 ∧
            (infill_nonpos zero_infill od).vsum = 0) := by
        rcases hshape with ⟨a, b, hsa, _⟩ | ⟨xs, ys, hsx, hoy, hlxy⟩
        · left
          subst hsa
          have := infill_nonpos_pos zero_infill_pos (Val.scalar a)
          unfold Val.vsum
          cases hflat : (infill_nonpos zero_infill (Val.scalar a)).flatten with
          | nil => simp [infill_nonpos, Val.flatten] at hflat
          | cons x rest =>
            have hx := this x (by rw [hflat]; simp)
            have hrest : rest = [] := by
              have := congrArg List.length hflat
              rw [infill_nonpos_flatten_length] at this
              simp [Val.flatten] at this
              simpa using this.symm
            subst hrest
            simpa using hx
        · subst hsx; subst hoy
          cases hxs : xs with
          | nil =>
            right
            have hys : ys = [] := List.eq_nil_of_length_eq_zero (by rw [← hlxy, hxs]; rfl)
            subst hxs; subst hys
            constructor <;> simp [infill_nonpos, Val.vsum, Val.flatten]
          | cons x rest =>
            left
            subst hxs
            unfold Val.vsum
            apply List.sum_pos
            · exact fun y hy => infill_nonpos_pos zero_infill_pos _ y hy
            · simp [infill_nonpos, Val.flatten]
      constructor
      · rw [hlook, vsum_mul_scalar, hdl1, hdl2]
        exact hkey _ _ hcase
      · intro hpos
        rw [hdl2] at hpos
        have hid : infill_nonpos zero_infill od = od := infill_nonpos_id_of_pos hpos
        rw [hlook, vsum_mul_scalar, hdl1, hdl2, hkey _ _ hcase, hid]
        unfold segment_total Val.vsum
        rw [hod]
  · intro hne
    unfold DVector.balance_at_segments
    rw [if_pos hne]

/-- C5 counterexample: with `other = [-10, 10]` for segment `p` (sum 0),
the balanced result's per-segment sum is `10 + 1e-10` — the sum of the
entrywise-infilled other — which is not within tolerance of
`sum(other[p]) = 0`, so the claim as stated fails on the code. -/
theorem C5_counterexample :
    DVector.balance_at_segments dvBalSelf dvBalOther =
      .ok ⟨some zsA, segP,
        [("p", Val.arr [(1/10000000000 + 10)/2, (1/10000000000 + 10)/2])], none⟩ ∧
    segment_total (⟨some zsA, segP,
      [("p", Val.arr [(1/10000000000 + 10)/2, (1/10000000000 + 10)/2])], none⟩ : DVector) "p" =
      10 + 1/10000000000 ∧
    segment_total dvBalOther "p" = 0 ∧
    isClose (10 + 1/10000000000) 0 (1/10000) 0 = false :=
  ⟨by decide, by decide, by decide, by decide⟩

theorem C5_witness :
    (∃ d : DVector, DVector.balance_at_segments dvBalSelf dvBalPos = .ok d ∧
      ∀ s ∈ dvBalSelf.segmentation.segment_names,
        segment_total d s = (infill_nonpos zero_infill (dlookupD dvBalPos.data s)).vsum ∧
        ((∀ x ∈ (dlookupD dvBalPos.data s).flatten, 0 < x) →
          segment_total d s = segment_total dvBalPos s)) ∧
    DVector.balance_at_segments dvBalSelf dvAgg =
      .error (.valueError "Segmentation of both DVectors does not match!") := by
  constructor
  · apply (C5_balance_at_segments_amended dvBalSelf dvBalPos).1
    · decide
    · decide
    · intro s hs
      have hsp : s = "p" := by simpa [dvBalSelf, segP] using hs
      subst hsp
      exact ⟨Val.arr [1, 1], Val.arr [2, 6], by decide, by decide,
        Or.inr ⟨[1, 1], [2, 6], rfl, rfl, rfl⟩⟩
  · exact (C5_balance_at_segments_amended dvBalSelf dvAgg).2 (by decide)

theorem getD_zipWith_add {a b : List ℚ} {j : ℕ} (hab : a.length = b.length)
    (hj : j < a.length) :
    (List.zipWith (fun x y => x + y) a b).getD j 0 = a.getD j 0 + b.getD j 0 := by
  induction a generalizing b j with
  | nil => simp at hj
  | cons x xs ih =>
    cases b with
    | nil => simp at hab
    | cons y ys =>
      cases j with
      | zero => simp [List.getD]
      | succ j2 =>
        simp only [List.zipWith_cons_cons]
        have h1 : (List.zipWith (fun x y => x + y) xs ys).getD j2 0 =
            xs.getD j2 0 + ys.getD j2 0 := ih (by simpa using hab) (by simpa using hj)
        simpa [List.getD] using h1

theorem foldl_zipadd {W : ℕ} :
    ∀ (rs : List (List ℚ)) (acc : List ℚ), acc.length = W → (∀ r ∈ rs, r.length = W) →
      (rs.foldl (fun acc x => List.zipWith (fun a b => a + b) acc x) acc).length = W ∧
      ∀ j, j < W →
        (rs.foldl (fun acc x => List.zipWith (fun a b => a + b) acc x) acc).getD j 0 =
          acc.getD j 0 + (rs.map (fun r => r.getD j 0)).sum := by
  intro rs
  induction rs with
  | nil => intro acc hacc _; exact ⟨hacc, fun j _ => by simp⟩
  | cons r rs2 ih =>
    intro acc hacc hrs
    have hr : r.length = W := hrs r (by simp)
    have hzl : (List.zipWith (fun a b => a + b) acc r).length = W := by
      rw [List.length_zipWith, hacc, hr, min_self]
    obtain ⟨ihl, ihd⟩ := ih (List.zipWith (fun a b => a + b) acc r) hzl
      (fun x hx => hrs x (by simp [hx]))
    refine ⟨ihl, fun j hj => ?_⟩
    simp only [List.foldl_cons]
    rw [ihd j hj]
    rw [getD_zipWith_add (by rw [hacc, hr]) (by rw [hacc]; exact hj)]
    simp only [List.map_cons, List.sum_cons]
    ring

theorem matColSums_spec {W : ℕ} {rows : List (List ℚ)} (hne : rows ≠ [])
    (hrect : ∀ r ∈ rows, r.length = W) :
    (matColSums rows).length = W ∧
    ∀ j, j < W → (matColSums rows).getD j 0 = (rows.map (fun r => r.getD j 0)).sum := by
  cases rows with
  | nil => exact absurd rfl hne
  | cons r rs =>
    unfold matColSums
    obtain ⟨hl, hd⟩ := foldl_zipadd rs r (hrect r (by simp)) (fun x hx => hrect x (by simp [hx]))
    refine ⟨hl, fun j hj => ?_⟩
    rw [hd j hj]
    simp only [List.map_cons, List.sum_cons]

theorem scaleRows_lengths {W : ℕ} :
    ∀ {vec : List ℚ} {T : List (List ℚ)}, (∀ r ∈ T, r.length = W) →
      ∀ r2 ∈ scaleRows vec T, r2.length = W := by
  intro vec
  induction vec with
  | nil => intro T _ r2 hr2; simp [scaleRows] at hr2
  | cons x xs ih =>
    intro T hrect r2 hr2
    cases T with
    | nil => simp [scaleRows] at hr2
    | cons r rs =>
      simp only [scaleRows, List.zipWith_cons_cons, List.mem_cons] at hr2
      rcases hr2 with hr2 | hr2
      · subst hr2
        rw [List.length_map]
        exact hrect r (by simp)
      · exact ih (fun t ht => hrect t (by simp [ht])) r2 hr2

theorem scaleRows_col {W : ℕ} :
    ∀ {vec : List ℚ} {T : List (List ℚ)} {j : ℕ}, vec.length = T.length →
      (∀ r ∈ T, r.length = W) → j < W →
      ((scaleRows vec T).map (fun r => r.getD j 0)).sum = translate_spec_value vec T j := by
  intro vec
  induction vec with
  | nil =>
    intro T j hlen _ _
    simp [scaleRows, translate_spec_value]
  | cons x xs ih =>
    intro T j hlen hrect hj
    cases T with
    | nil => simp at hlen
    | cons r rs =>
      simp only [scaleRows, List.zipWith_cons_cons, List.map_cons, List.sum_cons]
      have hx : (r.map (fun t => x * t)).getD j 0 = x * r.getD j 0 := by
        have hjr : j < r.length := by rw [hrect r (by simp)]; exact hj
        rw [List.getD_eq_getElem _ _ (by rw [List.length_map]; exact hjr),
          List.getD_eq_getElem _ _ hjr]
        simp
      rw [hx]
      have hrec := ih (by simpa using hlen) (fun t ht => hrect t (by simp [ht])) hj
      unfold scaleRows at hrec
      rw [hrec]
      unfold translate_spec_value
      simp only [List.length_cons]
      rw [List.range_succ_eq_map]
      simp only [List.map_cons, List.sum_cons, List.map_map]
      have : ∀ i ∈ List.range xs.length,
          ((fun i => (x :: xs).getD i 0 * ((r :: rs).getD i []).getD j 0) ∘ Nat.succ) i =
            (fun i => xs.getD i 0 * (rs.getD i []).getD j 0) i := by
        intro i _
        simp [List.getD]
      rw [List.map_congr_left this]
      simp [List.getD]

theorem dlookup_entry_map (g : Val → Val) :
    ∀ (d : Dict) (k : Key),
      dlookup (d.map (fun kv => (kv.1, g kv.2))) k = (dlookup d k).map g := by
  intro d
  induction d with
  | nil => intro k; simp [dlookup]
  | cons p rest ih =>
    intro k
    unfold dlookup at ih ⊢
    simp only [List.map_cons, List.find?_cons]
    cases hb : (p.1 == k) with
    | false => rw [ih k]
    | true => simp

theorem flatten_map_chunks {α β : Type} (f : α → β) (l : List α) (n : ℕ)
    (h : 1 ≤ n ∨ l = []) :
    ((chunkList l n).map (List.map f)).flatten = l.map f := by
  rw [← List.map_flatten, chunkList_flatten l n h]

/-- C8: `translate_zoning` returns a vector on the target zoning system
whose array for every segment is, entry by entry, the spec's formula
`new_value[j] = sum_i old_value[i] * translation[i][j]`; the segmentation
and the time format are unchanged. -/
theorem C8_translate_zoning (new_zoning : ZoningSystem) (translation : List (List ℚ))
    (chunk_divider min_chunk_size : ℕ) (v : DVector) (z : ZoningSystem) (W : ℕ)
    (hz : v.zoning_system = some z)
    (hmin : 1 ≤ min_chunk_size)
    (hsub : ∀ k ∈ dkeys v.data, k ∈ v.segmentation.segment_names)
    (hsup : ∀ s ∈ v.segmentation.segment_names, s ∈ dkeys v.data)
    (htf : v.segmentation.has_time_period_segments = true → v.time_format ≠ none)
    (hlen : ∀ kv ∈ v.data, (Val.flatten kv.2).length = translation.length)
    (hTne : translation ≠ [])
    (hrect : ∀ r ∈ translation, r.length = W) :
    ∃ d : DVector,
      DVector.translate_zoning new_zoning translation chunk_divider min_chunk_size v = .ok d ∧
      d.zoning_system = some new_zoning ∧ d.segmentation = v.segmentation ∧
      d.time_format = v.time_format ∧
      ∀ s ∈ dkeys v.data, ∃ w : List ℚ,
        dlookup d.data s = some (Val.arr w) ∧ w.length = W ∧
        ∀ j, j < W → w.getD j 0 = translate_spec_value ((dlookupD v.data s).flatten) translation j := by
  have hflat : ((chunkList v.data
      (max (ceilDiv v.data.length chunk_divider) min_chunk_size)).map
        (translate_zoning_internal translation)).flatten =
      v.data.map (fun kv => (kv.1, Val.arr (matColSums (scaleRows kv.2.flatten translation)))) := by
    exact flatten_map_chunks _ v.data _ (Or.inl (le_max_of_le_right hmin))
  refine ⟨⟨some new_zoning, v.segmentation,
    v.data.map (fun kv => (kv.1, Val.arr (matColSums (scaleRows kv.2.flatten translation)))),
    v.time_format⟩, ?_, rfl, rfl, rfl, ?_⟩
  · unfold DVector.translate_zoning
    simp only [hz]
    rw [hflat]
    apply make_ok_self htf
    · intro k hk
      apply hsub
      unfold dkeys at hk ⊢
      rw [List.map_map] at hk
      rwa [show (Prod.fst ∘ fun kv : Key × Val =>
        (kv.1, Val.arr (matColSums (scaleRows kv.2.flatten translation)))) = Prod.fst
        from rfl] at hk
    · intro s hs
      have := hsup s hs
      unfold dkeys at this ⊢
      rw [List.map_map]
      rwa [show (Prod.fst ∘ fun kv : Key × Val =>
        (kv.1, Val.arr (matColSums (scaleRows kv.2.flatten translation)))) = Prod.fst
        from rfl]
  · intro s hs
    have hsome : (dlookup v.data s).isSome = true := dlookup_isSome_iff.mpr hs
    cases hval : dlookup v.data s with
    | none => rw [hval] at hsome; exact absurd hsome (by simp)
    | some val =>
      have hmem := dlookup_mem hval
      have hvl : val.flatten.length = translation.length := hlen (s, val) hmem
      have hvne : val.flatten ≠ [] := by
        intro hc
        exact hTne (List.eq_nil_of_length_eq_zero (by rw [← hvl, hc]; rfl))
      have hsne : scaleRows val.flatten translation ≠ [] := by
        unfold scaleRows
        intro hc
        have := congrArg List.length hc
        rw [List.length_zipWith, hvl, min_self] at this
        simp at this
        exact hTne this
      obtain ⟨hwl, hwd⟩ := matColSums_spec hsne (scaleRows_lengths hrect)
      refine ⟨matColSums (scaleRows val.flatten translation), ?_, hwl, ?_⟩
      · simp only
        rw [show (fun kv : Key × Val =>
          (kv.1, Val.arr (matColSums (scaleRows kv.2.flatten translation)))) =
          (fun kv : Key × Val =>
            (kv.1, (fun w => Val.arr (matColSums (scaleRows w.flatten translation))) kv.2))
          from rfl]
        rw [dlookup_entry_map
          (fun w => Val.arr (matColSums (scaleRows w.flatten translation))) v.data s, hval]
        rfl
      · intro j hj
        rw [hwd j hj, scaleRows_col hvl hrect hj]
        unfold dlookupD
        rw [hval]
        rfl

theorem C8_witness :
    ∃ d : DVector, DVector.translate_zoning zsA trMat 3 700 dvTrans = .ok d ∧
      d.zoning_system = some zsA ∧ d.segmentation = dvTrans.segmentation ∧
      d.time_format = dvTrans.time_format ∧
      ∀ s ∈ dkeys dvTrans.data, ∃ w : List ℚ,
        dlookup d.data s = some (Val.arr w) ∧ w.length = 2 ∧
        ∀ j, j < 2 → w.getD j 0 = translate_spec_value ((dlookupD dvTrans.data s).flatten) trMat j :=
  C8_translate_zoning zsA trMat 3 700 dvTrans zsA 2 (by decide) (by decide) (by decide)
    (by decide) (by decide) (by decide) (by decide) (by decide)

theorem ctf_apply_group_ok {data : Dict} {factors : Factors} {tp : ℕ} {f : ℚ}
    (hf : flookup factors tp = some f) :
    ∀ {segs : List Key} {acc : Dict},
      (∀ s ∈ segs, s ∈ dkeys data) →
      dkeys acc = dkeys data →
      ∃ acc2, ctf_apply_group data factors tp segs acc = .ok acc2 ∧
        dkeys acc2 = dkeys acc ∧
        (∀ k, k ∈ segs → dlookup acc2 k = some ((dlookupD data k).mul (.scalar f))) ∧
        (∀ k, k ∉ segs → dlookup acc2 k = dlookup acc k) := by
  intro segs
  induction segs with
  | nil =>
    intro acc _ _
    exact ⟨acc, rfl, rfl, fun k hk => absurd hk (by simp), fun k _ => rfl⟩
  | cons s rest ih =>
    intro acc hmem hkeys
    have hs : s ∈ dkeys data := hmem s (by simp)
    have hsv : (dlookup data s).isSome = true := dlookup_isSome_iff.mpr hs
    cases hv : dlookup data s with
    | none => rw [hv] at hsv; exact absurd hsv (by simp)
    | some val =>
      have hsacc : s ∈ dkeys acc := by rw [hkeys]; exact hs
      obtain ⟨acc2, hfold, hk2, hin, hout⟩ := ih
        (fun x hx => hmem x (by simp [hx]))
        (by rw [dkeys_dset_of_mem (val.mul (.scalar f)) hsacc]; exact hkeys)
      refine ⟨acc2, ?_, ?_, ?_, ?_⟩
      · unfold ctf_apply_group ctf_apply_seg
        simp only [hv, hf]
        exact hfold
      · rw [hk2, dkeys_dset_of_mem _ hsacc]
      · intro k hk
        rcases List.mem_cons.mp hk with hk | hk
        · subst hk
          by_cases hkr : k ∈ rest
          · exact hin k hkr
          · rw [hout k hkr, dlookup_dset_self]
            unfold dlookupD
            rw [hv]
            rfl
        · exact hin k hk
      · intro k hk
        have hkne : k ≠ s := fun hc => hk (by simp [hc])
        have hkr : k ∉ rest := fun hc => hk (by simp [hc])
        rw [hout k hkr, dlookup_dset_other _ _ hkne]

theorem tpFactor_none_of_not_mem {groups : List (ℕ × List Key)} {factors : Factors} {k : Key}
    (h : k ∉ (groups.map Prod.snd).flatten) : tpFactor groups factors k = none := by
  unfold tpFactor
  have : groups.find? (fun g => g.2.contains k) = none := by
    rw [List.find?_eq_none]
    intro g hg hc
    exact h (List.mem_flatten.mpr ⟨g.2, List.mem_map.mpr ⟨g, hg, rfl⟩,
      contains_iff_memKey.mp hc⟩)
  rw [this]

theorem ctf_fold_ok {data : Dict} {factors : Factors} :
    ∀ {groups : List (ℕ × List Key)} {acc : Dict},
      (∀ g ∈ groups, ∀ s ∈ g.2, s ∈ dkeys data) →
      (∀ g ∈ groups, (flookup factors g.1).isSome = true) →
      ((groups.map Prod.snd).flatten).Nodup →
      dkeys acc = dkeys data →
      ∃ acc2, ctf_fold data factors groups acc = .ok acc2 ∧
        dkeys acc2 = dkeys acc ∧
        (∀ k f2, tpFactor groups factors k = some f2 →
          dlookup acc2 k = some ((dlookupD data k).mul (.scalar f2))) ∧
        (∀ k, tpFactor groups factors k = none → dlookup acc2 k = dlookup acc k) := by
  intro groups
  induction groups with
  | nil =>
    intro acc _ _ _ _
    exact ⟨acc, rfl, rfl, fun k f2 h => by simp [tpFactor, List.find?] at h, fun k _ => rfl⟩
  | cons g gs ih =>
    intro acc hmem hfac hdisj hkeys
    have hgf : (flookup factors g.1).isSome = true := hfac g (by simp)
    cases hf : flookup factors g.1 with
    | none => rw [hf] at hgf; exact absurd hgf (by simp)
    | some f =>
      obtain ⟨acc1, happ, hk1, hin1, hout1⟩ := ctf_apply_group_ok hf
        (hmem g (by simp)) hkeys
      simp only [List.map_cons, List.flatten_cons, List.nodup_append] at hdisj
      obtain ⟨hnd1, hnd2, hsep⟩ := hdisj
      obtain ⟨acc2, hfold, hk2, hin2, hout2⟩ := ih
        (fun g2 hg2 => hmem g2 (by simp [hg2]))
        (fun g2 hg2 => hfac g2 (by simp [hg2]))
        hnd2
        (by rw [hk1]; exact hkeys)
      refine ⟨acc2, ?_, by rw [hk2, hk1], ?_, ?_⟩
      · unfold ctf_fold
        simp only [happ]
        exact hfold
      · intro k f2 htpf
        unfold tpFactor at htpf
        by_cases hkg : (g.2.contains k) = true
        · simp only [List.find?_cons, hkg] at htpf
          have hknot : k ∉ (gs.map Prod.snd).flatten := by
            intro hc
            exact hsep (contains_iff_memKey.mp hkg) hc
          rw [hout2 k (tpFactor_none_of_not_mem hknot), hin1 k (contains_iff_memKey.mp hkg)]
          rw [hf] at htpf
          simp only [Option.some.injEq] at htpf
          rw [htpf]
        · simp only [List.find?_cons, hkg] at htpf
          exact hin2 k f2 htpf
      · intro k htpf
        unfold tpFactor at htpf
        by_cases hkg : (g.2.contains k) = true
        · simp only [List.find?_cons, hkg, hf] at htpf
          exact absurd htpf (by simp)
        · simp only [List.find?_cons, hkg] at htpf
          rw [hout2 k htpf, hout1 k (fun hc => hkg (contains_iff_memKey.mpr hc))]

theorem convert_time_format_ok {v : DVector} {cur ntf : TimeFormat} {factors : Factors}
    (hcur : v.time_format = some cur)
    (hne : cur ≠ ntf)
    (htp : v.segmentation.has_time_period_segments = true)
    (hfacs : cur.get_conversion_factors ntf = .ok factors)
    (hmiss : ∀ g ∈ v.segmentation.tp_groups, ((factors.map Prod.fst).contains g.1) = true)
    (hmem : ∀ g ∈ v.segmentation.tp_groups, ∀ s ∈ g.2, s ∈ dkeys v.data)
    (hfac : ∀ g ∈ v.segmentation.tp_groups, (flookup factors g.1).isSome = true)
    (hdisj : ((v.segmentation.tp_groups.map Prod.snd).flatten).Nodup)
    (hsub : ∀ k ∈ dkeys v.data, k ∈ v.segmentation.segment_names)
    (hsup : ∀ s ∈ v.segmentation.segment_names, s ∈ dkeys v.data) :
    ∃ D : Dict,
      DVector.convert_time_format v (some ntf) =
        .ok ⟨v.zoning_system, v.segmentation, D, some ntf⟩ ∧
      dkeys D = dkeys v.data ∧
      (∀ k f2, tpFactor v.segmentation.tp_groups factors k = some f2 →
        dlookup D k = some ((dlookupD v.data k).mul (.scalar f2))) ∧
      (∀ k, tpFactor v.segmentation.tp_groups factors k = none →
        dlookup D k = dlookup (v.data.map (fun kv => (kv.1, Val.pynone))) k) := by
  have hinitkeys : dkeys (v.data.map (fun kv => (kv.1, Val.pynone))) = dkeys v.data := by
    unfold dkeys
    rw [List.map_map]
    rfl
  obtain ⟨D, hfold, hkD, hinD, houtD⟩ := ctf_fold_ok hmem hfac hdisj hinitkeys
  refine ⟨D, ?_, by rw [hkD, hinitkeys], hinD, houtD⟩
  unfold DVector.convert_time_format validate_time_format
  rw [if_neg (by intro ⟨_, hc⟩; exact Option.noConfusion hc)]
  simp only [hcur]
  rw [if_neg (by rw [htp]; exact fun hc => Bool.noConfusion hc)]
  rw [if_neg hne]
  simp only [hfacs]
  rw [if_neg (by
    simp only [Bool.not_eq_true']
    rw [Bool.not_eq_false]
    rw [List.all_eq_true]
    exact hmiss)]
  simp only [hfold]
  apply make_ok_self
  · intro _ hc
    exact Option.noConfusion hc
  · intro k hk
    rw [hkD, hinitkeys] at hk
    exact hsub k hk
  · intro s hs
    rw [hkD, hinitkeys]
    exact hsup s hs

theorem factor_table_facts : ∀ tp ∈ [1, 2, 3, 4, 5, 6],
    (flookup week_to_day_factors tp).isSome = true ∧
    (flookup hour_to_day_factors tp).isSome = true ∧
    (flookup day_to_week_factors tp).isSome = true ∧
    ((week_to_day_factors.map Prod.fst).contains tp) = true ∧
    ((hour_to_day_factors.map Prod.fst).contains tp) = true ∧
    ((day_to_week_factors.map Prod.fst).contains tp) = true ∧
    (flookup day_to_week_factors tp).getD 0 * (flookup week_to_day_factors tp).getD 0 = 1 := by
  decide

theorem convert_day_week_day {d1 : DVector}
    (htf : d1.time_format = some TimeFormat.AVG_DAY)
    (htp : d1.segmentation.has_time_period_segments = true)
    (hsub : ∀ k ∈ dkeys d1.data, k ∈ d1.segmentation.segment_names)
    (hsup : ∀ s ∈ d1.segmentation.segment_names, s ∈ dkeys d1.data)
    (hnd : (dkeys d1.data).Nodup)
    (hpart : ((d1.segmentation.tp_groups.map Prod.snd).flatten).Perm (dkeys d1.data))
    (htps : ∀ g ∈ d1.segmentation.tp_groups, g.1 ∈ [1, 2, 3, 4, 5, 6]) :
    (d1.convert_time_format (some TimeFormat.AVG_WEEK)).bind
      (fun d2 => d2.convert_time_format (some TimeFormat.AVG_DAY)) = .ok d1 := by
  have hmem : ∀ g ∈ d1.segmentation.tp_groups, ∀ s ∈ g.2, s ∈ dkeys d1.data := by
    intro g hg s hs
    exact hpart.mem_iff.mp (List.mem_flatten.mpr ⟨g.2, List.mem_map.mpr ⟨g, hg, rfl⟩, hs⟩)
  have hdisj : ((d1.segmentation.tp_groups.map Prod.snd).flatten).Nodup :=
    hpart.nodup_iff.mpr hnd
  have hfacdw : ∀ g ∈ d1.segmentation.tp_groups,
      (flookup day_to_week_factors g.1).isSome = true :=
    fun g hg => (factor_table_facts g.1 (htps g hg)).2.2.1
  have hmissdw : ∀ g ∈ d1.segmentation.tp_groups,
      ((day_to_week_factors.map Prod.fst).contains g.1) = true :=
    fun g hg => (factor_table_facts g.1 (htps g hg)).2.2.2.2.2.1
  obtain ⟨D2, hrun2, hkD2, hin2, hout2⟩ := convert_time_format_ok htf
    (by intro hc; exact TimeFormat.noConfusion hc) htp
    (show TimeFormat.AVG_DAY.get_conversion_factors TimeFormat.AVG_WEEK =
      .ok day_to_week_factors by decide)
    hmissdw hmem hfacdw hdisj hsub hsup
  have hfacwd : ∀ g ∈ d1.segmentation.tp_groups,
      (flookup week_to_day_factors g.1).isSome = true :=
    fun g hg => (factor_table_facts g.1 (htps g hg)).1
  have hmisswd : ∀ g ∈ d1.segmentation.tp_groups,
      ((week_to_day_factors.map Prod.fst).contains g.1) = true :=
    fun g hg => (factor_table_facts g.1 (htps g hg)).2.2.2.1
  have hmem2 : ∀ g ∈ d1.segmentation.tp_groups, ∀ s ∈ g.2, s ∈ dkeys D2 := by
    intro g hg s hs
    rw [hkD2]
    exact hmem g hg s hs
  obtain ⟨D3, hrun3, hkD3, hin3, hout3⟩ := convert_time_format_ok
    (show (⟨d1.zoning_system, d1.segmentation, D2,
        some TimeFormat.AVG_WEEK⟩ : DVector).time_format =
      some TimeFormat.AVG_WEEK from rfl)
    (by intro hc; exact TimeFormat.noConfusion hc) htp
    (show TimeFormat.AVG_WEEK.get_conversion_factors TimeFormat.AVG_DAY =
      .ok week_to_day_factors by decide)
    hmisswd hmem2 hfacwd hdisj
    (by intro k hk; rw [hkD2] at hk; exact hsub k hk)
    (by intro s hs; rw [hkD2]; exact hsup s hs)
  rw [hrun2]
  show (⟨d1.zoning_system, d1.segmentation, D2,
    some TimeFormat.AVG_WEEK⟩ : DVector).convert_time_format (some TimeFormat.AVG_DAY) = .ok d1
  rw [hrun3]
  have hdata : D3 = d1.data := by
    apply dict_ext
    · rw [hkD3, hkD2]
    · rw [hkD3, hkD2]
      exact hnd
    · intro k
      by_cases hk : k ∈ dkeys d1.data
      · have hkfl : k ∈ (d1.segmentation.tp_groups.map Prod.snd).flatten :=
          hpart.mem_iff.mpr hk
        rcases List.mem_flatten.mp hkfl with ⟨l, hl, hkl⟩
        rcases List.mem_map.mp hl with ⟨g, hg, hgl⟩
        subst hgl
        have hfindSome : (d1.segmentation.tp_groups.find?
            (fun g2 => g2.2.contains k)).isSome = true := by
          rw [List.find?_isSome]
          exact ⟨g, hg, contains_iff_memKey.mpr hkl⟩
        cases hfind : d1.segmentation.tp_groups.find? (fun g2 => g2.2.contains k) with
        | none => rw [hfind] at hfindSome; exact absurd hfindSome (by simp)
        | some g0 =>
          have hg0 : g0 ∈ d1.segmentation.tp_groups := List.mem_of_find?_eq_some hfind
          have htpg0 := htps g0 hg0
          have hfacts := factor_table_facts g0.1 htpg0
          have htpf2 : tpFactor d1.segmentation.tp_groups day_to_week_factors k =
              some ((flookup day_to_week_factors g0.1).getD 0) := by
            unfold tpFactor
            rw [hfind]
            show flookup day_to_week_factors g0.1 = _
            cases hdw : flookup day_to_week_factors g0.1 with
            | none => rw [hdw] at hfacts; exact absurd hfacts.2.2.1 (by simp)
            | some a => rfl
          have htpf3 : tpFactor d1.segmentation.tp_groups week_to_day_factors k =
              some ((flookup week_to_day_factors g0.1).getD 0) := by
            unfold tpFactor
            rw [hfind]
            show flookup week_to_day_factors g0.1 = _
            cases hwd : flookup week_to_day_factors g0.1 with
            | none => rw [hwd] at hfacts; exact absurd hfacts.1 (by simp)
            | some b => rfl
          have h3 := hin3 k _ htpf3
          have h2 := hin2 k _ htpf2
          rw [h3]
          have hD2k : dlookupD D2 k = (dlookupD d1.data k).mul
              (.scalar ((flookup day_to_week_factors g0.1).getD 0)) := by
            unfold dlookupD
            rw [h2]
            rfl
          show some ((dlookupD D2 k).mul _) = _
          rw [hD2k, mul_scalar_mul_scalar, hfacts.2.2.2.2.2.2, mul_scalar_one]
          have hkv : (dlookup d1.data k).isSome = true := dlookup_isSome_iff.mpr hk
          cases hval : dlookup d1.data k with
          | none => rw [hval] at hkv; exact absurd hkv (by simp)
          | some val =>
            unfold dlookupD
            rw [hval]
            rfl
      · have hknotfl : k ∉ (d1.segmentation.tp_groups.map Prod.snd).flatten := by
          intro hc
          exact hk (hpart.mem_iff.mp hc)
        have h3 := hout3 k (tpFactor_none_of_not_mem hknotfl)
        rw [h3]
        show dlookup (D2.map (fun kv => (kv.1, Val.pynone))) k = dlookup d1.data k
        rw [show (fun kv : Key × Val => (kv.1, Val.pynone)) =
          (fun kv : Key × Val => (kv.1, (fun _ : Val => Val.pynone) kv.2)) from rfl]
        rw [dlookup_entry_map (fun _ : Val => Val.pynone) D2 k]
        have hnone2 : dlookup D2 k = none := by
          rw [dlookup_eq_none_iff, hkD2]
          exact hk
        have hnone1 : dlookup d1.data k = none := by
          rw [dlookup_eq_none_iff]
          exact hk
        rw [hnone2, hnone1]
        rfl
  rw [hdata, htf.symm]

/-- C6: converting a DVector (with a time basis, time-period segments and
known factors for all its periods) to the format it already has is a
no-op returning an equal copy; the round trip
`convert(AVG_DAY); convert(AVG_WEEK); convert(AVG_DAY)` reproduces
`convert(AVG_DAY)` exactly in the rational model; the compound
week↔hour factors are the products of the week↔day and day↔hour factors,
and every inverse factor is the reciprocal of the forward factor. -/
theorem C6_time_format_conversion (v : DVector) (tf0 : TimeFormat)
    (hcur : v.time_format = some tf0)
    (htp : v.segmentation.has_time_period_segments = true)
    (hsub : ∀ k ∈ dkeys v.data, k ∈ v.segmentation.segment_names)
    (hsup : ∀ s ∈ v.segmentation.segment_names, s ∈ dkeys v.data)
    (hnd : (dkeys v.data).Nodup)
    (hpart : ((v.segmentation.tp_groups.map Prod.snd).flatten).Perm (dkeys v.data))
    (htps : ∀ g ∈ v.segmentation.tp_groups, g.1 ∈ [1, 2, 3, 4, 5, 6]) :
    (v.convert_time_format (some tf0) = .ok v) ∧
    ((v.convert_time_format (some TimeFormat.AVG_DAY)).bind
      (fun d1 => (d1.convert_time_format (some TimeFormat.AVG_WEEK)).bind
        (fun d2 => d2.convert_time_format (some TimeFormat.AVG_DAY))) =
      v.convert_time_format (some TimeFormat.AVG_DAY)) ∧
    (∀ tp ∈ [1, 2, 3, 4, 5, 6],
      flookup week_to_hour_factors tp =
        some ((flookup week_to_day_factors tp).getD 0 *
          (flookup day_to_hour_factors tp).getD 0) ∧
      flookup hour_to_week_factors tp =
        some (1 / ((flookup week_to_hour_factors tp).getD 0)) ∧
      flookup hour_to_day_factors tp =
        some (1 / ((flookup day_to_hour_factors tp).getD 0)) ∧
      flookup day_to_week_factors tp =
        some (1 / ((flookup week_to_day_factors tp).getD 0))) := by
  have hmem : ∀ g ∈ v.segmentation.tp_groups, ∀ s ∈ g.2, s ∈ dkeys v.data := by
    intro g hg s hs
    exact hpart.mem_iff.mp (List.mem_flatten.mpr ⟨g.2, List.mem_map.mpr ⟨g, hg, rfl⟩, hs⟩)
  have hdisj : ((v.segmentation.tp_groups.map Prod.snd).flatten).Nodup :=
    hpart.nodup_iff.mpr hnd
  have hnoop : v.convert_time_format (some tf0) = .ok v := by
    unfold DVector.convert_time_format validate_time_format
    rw [if_neg (by intro ⟨_, hc⟩; exact Option.noConfusion hc)]
    simp only [hcur]
    rw [if_neg (by rw [htp]; exact fun hc => Bool.noConfusion hc)]
    rw [if_pos trivial]
    unfold DVector.copy
    rw [make_ok_self (fun _ h => Option.noConfusion (hcur.symm.trans h)) hsub hsup]
  refine ⟨hnoop, ?_, by decide⟩
  by_cases htf0 : tf0 = TimeFormat.AVG_DAY
  · subst htf0
    rw [hnoop]
    show (v.convert_time_format (some TimeFormat.AVG_WEEK)).bind
      (fun d2 => d2.convert_time_format (some TimeFormat.AVG_DAY)) = _
    rw [convert_day_week_day hcur htp hsub hsup hnd hpart htps]
  · have hfactors : ∃ factors : Factors,
        tf0.get_conversion_factors TimeFormat.AVG_DAY = .ok factors ∧
        (∀ g ∈ v.segmentation.tp_groups, (flookup factors g.1).isSome = true) ∧
        (∀ g ∈ v.segmentation.tp_groups, ((factors.map Prod.fst).contains g.1) = true) := by
      cases tf0 with
      | AVG_DAY => exact absurd rfl htf0
      | AVG_WEEK =>
        exact ⟨week_to_day_factors, by decide,
          fun g hg => (factor_table_facts g.1 (htps g hg)).1,
          fun g hg => (factor_table_facts g.1 (htps g hg)).2.2.2.1⟩
      | AVG_HOUR =>
        exact ⟨hour_to_day_factors, by decide,
          fun g hg => (factor_table_facts g.1 (htps g hg)).2.1,
          fun g hg => (factor_table_facts g.1 (htps g hg)).2.2.2.2.1⟩
    obtain ⟨factors, hfacs, hfacg, hmissg⟩ := hfactors
    obtain ⟨D1, hrun1, hkD1, _, _⟩ := convert_time_format_ok hcur htf0 htp hfacs
      hmissg hmem hfacg hdisj hsub hsup
    rw [hrun1]
    show ((⟨v.zoning_system, v.segmentation, D1, some TimeFormat.AVG_DAY⟩ :
      DVector).convert_time_format (some TimeFormat.AVG_WEEK)).bind
      (fun d2 => d2.convert_time_format (some TimeFormat.AVG_DAY)) = _
    exact convert_day_week_day rfl htp
      (by intro k hk; rw [hkD1] at hk; exact hsub k hk)
      (by intro s hs; rw [hkD1]; exact hsup s hs)
      (by rw [hkD1]; exact hnd)
      (by rw [hkD1]; exact hpart)
      htps

/-- Witness for C6 at the concrete hourly vector dvTp. -/
theorem C6_witness :
    (dvTp.convert_time_format (some TimeFormat.AVG_HOUR) = .ok dvTp) ∧
    ((dvTp.convert_time_format (some TimeFormat.AVG_DAY)).bind
      (fun d1 => (d1.convert_time_format (some TimeFormat.AVG_WEEK)).bind
        (fun d2 => d2.convert_time_format (some TimeFormat.AVG_DAY))) =
      dvTp.convert_time_format (some TimeFormat.AVG_DAY)) ∧
    (∀ tp ∈ [1, 2, 3, 4, 5, 6],
      flookup week_to_hour_factors tp =
        some ((flookup week_to_day_factors tp).getD 0 *
          (flookup day_to_hour_factors tp).getD 0) ∧
      flookup hour_to_week_factors tp =
        some (1 / ((flookup week_to_hour_factors tp).getD 0)) ∧
      flookup hour_to_day_factors tp =
        some (1 / ((flookup day_to_hour_factors tp).getD 0)) ∧
      flookup day_to_week_factors tp =
        some (1 / ((flookup week_to_day_factors tp).getD 0))) :=
  C6_time_format_conversion dvTp TimeFormat.AVG_HOUR rfl rfl
    (by decide) (by decide) (by decide) (by decide) (by decide)

theorem dlookup_tri_map (h : Key × Key × Key → Val) :
    ∀ (md : List (Key × Key × Key)) (s : Key),
      dlookup (md.map (fun e => (e.1, h e))) s =
        (md.find? (fun p => p.1 == s)).map h := by
  intro md s
  induction md with
  | nil => rfl
  | cons e es ih =>
    show dlookup ((e.1, h e) :: es.map (fun x => (x.1, h x))) s = _
    unfold dlookup
    rw [List.find?_cons, List.find?_cons]
    cases hc : e.1 == s with
    | true => rfl
    | false => exact ih

theorem mapE_map_post {α β γ : Type} (g : α → Except NdError β) (h : β → γ) :
    ∀ (xs : List α),
      mapE (fun s => (g s).map h) xs = (mapE g xs).map (List.map h) := by
  intro xs
  induction xs with
  | nil => rfl
  | cons x xs ih =>
    show (match (g x).map h with
      | Except.error e => Except.error e
      | Except.ok b =>
        match mapE (fun s => (g s).map h) xs with
        | Except.error e => Except.error e
        | Except.ok bs => Except.ok (b :: bs)) =
      (match g x with
        | Except.error e => Except.error e
        | Except.ok b =>
          match mapE g xs with
          | Except.error e => Except.error e
          | Except.ok bs => Except.ok (b :: bs)).map (List.map h)
    rw [ih]
    cases g x with
    | error e => rfl
    | ok b =>
      cases mapE g xs with
      | error e => rfl
      | ok bs => rfl

/-- C1 (amended): multiply_and_aggregate agrees with multiply-then-aggregate
at the Except level — same errors, same result DVector — provided other's
zoning system equals self's or is null (otherwise the two paths stamp
different zoning systems on the result, see the counterexample), every
multiplication source key is present in the operands, the product keys are
exactly the intermediate segmentation's segment names, a time format is
available whenever the intermediate segmentation carries time periods, and
the chunk divider is positive. -/
theorem C1_multiply_and_aggregate_amended
    (md : List (Key × Key × Key)) (ad : List (Key × List Key))
    (mseg out_seg : SegmentationLevel) (chunk_divider : ℕ) (a b : DVector)
    (H1 : b.zoning_system = a.zoning_system ∨ b.zoning_system = none)
    (H2 : mseg.has_time_period_segments = true → choose_time_format a b ≠ none)
    (H3 : ∀ e ∈ md, (dlookup a.data e.2.1).isSome = true ∧
      (dlookup b.data e.2.2).isSome = true)
    (H4 : ∀ e ∈ md, e.1 ∈ mseg.segment_names)
    (H5 : ∀ s ∈ mseg.segment_names, s ∈ md.map (fun e => e.1))
    (Hdiv : 0 < chunk_divider) :
    DVector.multiply_and_aggregate md ad out_seg chunk_divider a b =
      (DVector.mul md mseg a b).bind (fun p => DVector.aggregate ad out_seg p) := by
  have hz : mulZoning a.zoning_system b.zoning_system = .ok a.zoning_system := by
    unfold mulZoning
    rcases H1 with hb | hb
    · rw [if_pos hb.symm]
    · by_cases ha : a.zoning_system = b.zoning_system
      · rw [if_pos ha]
      · rw [if_neg ha, if_neg (fun h0 => ha (h0.trans hb.symm)), if_pos hb]
  have hprod : pairwise_mul_data md a.data b.data =
      .ok (mul_product_dict md a.data b.data) := by
    unfold mul_product_dict
    apply mapE_eq_ok_of
    intro e he
    obtain ⟨h1, h2⟩ := H3 e he
    obtain ⟨va, hva⟩ := Option.isSome_iff_exists.mp h1
    obtain ⟨vb, hvb⟩ := Option.isSome_iff_exists.mp h2
    show (match dlookup a.data e.2.1, dlookup b.data e.2.2 with
      | some va, some vb => Except.ok (e.1, va.mul vb)
      | _, _ => Except.error NdError.keyError) = _
    rw [hva, hvb]
    simp only [dlookupD, hva, hvb, Option.getD_some]
  have hkeys : dkeys (mul_product_dict md a.data b.data) = md.map (fun e => e.1) := by
    unfold dkeys mul_product_dict
    rw [List.map_map]
    rfl
  have hmul : DVector.mul md mseg a b =
      .ok ⟨a.zoning_system, mseg, mul_product_dict md a.data b.data,
        choose_time_format a b⟩ := by
    show (match mulZoning a.zoning_system b.zoning_system with
      | Except.error e => Except.error e
      | Except.ok return_zoning =>
        match pairwise_mul_data md a.data b.data with
        | Except.error e => Except.error e
        | Except.ok d => DVector.make return_zoning mseg d (choose_time_format a b) 0) = _
    rw [hz, hprod]
    show DVector.make a.zoning_system mseg (mul_product_dict md a.data b.data)
      (choose_time_format a b) 0 = _
    apply make_ok_self H2
    · intro k hk
      rw [hkeys] at hk
      obtain ⟨e, he, hke⟩ := List.mem_map.mp hk
      rw [← hke]
      exact H4 e he
    · intro s hs
      rw [hkeys]
      exact H5 s hs
  have hinner : ∀ s : Key,
      (match mdLookup md s with
        | none => Except.error NdError.keyError
        | some sk =>
          match dlookup a.data sk.1, dlookup b.data sk.2 with
          | some va, some vb => Except.ok ((va.mul vb).flatten)
          | _, _ => Except.error NdError.keyError) =
      (match dlookup (mul_product_dict md a.data b.data) s with
        | some w => Except.ok w
        | none => Except.error NdError.keyError).map Val.flatten := by
    intro s
    have hlk : dlookup (mul_product_dict md a.data b.data) s =
        (md.find? (fun p => p.1 == s)).map
          (fun e => (dlookupD a.data e.2.1).mul (dlookupD b.data e.2.2)) := by
      unfold mul_product_dict
      exact dlookup_tri_map _ md s
    unfold mdLookup
    cases hf : md.find? (fun p => p.1 == s) with
    | none =>
      rw [hf, Option.map_none'] at hlk
      rw [hlk]
      rfl
    | some p =>
      have hp : p ∈ md := List.mem_of_find?_eq_some hf
      obtain ⟨h1, h2⟩ := H3 p hp
      obtain ⟨va, hva⟩ := Option.isSome_iff_exists.mp h1
      obtain ⟨vb, hvb⟩ := Option.isSome_iff_exists.mp h2
      rw [hf, Option.map_some'] at hlk
      rw [hlk]
      show (match dlookup a.data p.2.1, dlookup b.data p.2.2 with
        | some va, some vb => Except.ok ((va.mul vb).flatten)
        | _, _ => Except.error NdError.keyError) = _
      simp only [hva, hvb, dlookupD, Option.getD_some]
      rfl
  have hptw : ∀ e : Key × List Key,
      (match mapE (fun s =>
          match mdLookup md s with
          | none => Except.error NdError.keyError
          | some sk =>
            match dlookup a.data sk.1, dlookup b.data sk.2 with
            | some va, some vb => Except.ok ((va.mul vb).flatten)
            | _, _ => Except.error NdError.keyError) e.2 with
        | Except.error err => Except.error err
        | Except.ok prods => Except.ok (e.1, npSumAxis0 prods)) =
      (match mapE (fun s =>
          match dlookup (mul_product_dict md a.data b.data) s with
          | some w => Except.ok w
          | none => Except.error NdError.keyError) e.2 with
        | Except.error err => Except.error err
        | Except.ok vals => Except.ok (e.1, npSumAxis0 (vals.map Val.flatten))) := by
    intro e
    rw [mapE_congr (fun s _ => hinner s), mapE_map_post]
    cases mapE (fun s =>
        match dlookup (mul_product_dict md a.data b.data) s with
        | some w => Except.ok w
        | none => Except.error NdError.keyError) e.2 with
    | error err => rfl
    | ok vals => rfl
  have hkey : mapE (fun e : Key × List Key =>
      match mapE (fun s =>
          match mdLookup md s with
          | none => Except.error NdError.keyError
          | some sk =>
            match dlookup a.data sk.1, dlookup b.data sk.2 with
            | some va, some vb => Except.ok ((va.mul vb).flatten)
            | _, _ => Except.error NdError.keyError) e.2 with
        | Except.error err => Except.error err
        | Except.ok prods => Except.ok (e.1, npSumAxis0 prods)) ad
      = aggregate_data ad (mul_product_dict md a.data b.data) :=
    mapE_congr (fun e _ => hptw e)
  have hchunk : (chunkList ad (ceilDiv ad.length chunk_divider)).flatten = ad := by
    apply chunkList_flatten
    cases ad with
    | nil => exact Or.inr rfl
    | cons x xs =>
      left
      show 1 ≤ ceilDiv (x :: xs).length chunk_divider
      unfold ceilDiv
      rw [Nat.le_div_iff_mul_le Hdiv]
      simp only [List.length_cons, one_mul]
      omega
  have hflat := mapE_flatten (fun e : Key × List Key =>
      match mapE (fun s =>
          match mdLookup md s with
          | none => Except.error NdError.keyError
          | some sk =>
            match dlookup a.data sk.1, dlookup b.data sk.2 with
            | some va, some vb => Except.ok ((va.mul vb).flatten)
            | _, _ => Except.error NdError.keyError) e.2 with
        | Except.error err => Except.error err
        | Except.ok prods => Except.ok (e.1, npSumAxis0 prods))
    (chunkList ad (ceilDiv ad.length chunk_divider))
  rw [hchunk] at hflat
  show (match mapE (multiply_and_aggregate_internal md a.data b.data)
      (chunkList ad (ceilDiv ad.length chunk_divider)) with
    | Except.error e => Except.error e
    | Except.ok chunk_results =>
      DVector.make a.zoning_system out_seg chunk_results.flatten
        (choose_time_format a b) 0)
    = (DVector.mul md mseg a b).bind (fun p => DVector.aggregate ad out_seg p)
  rw [hmul]
  show _ = (match aggregate_data ad (mul_product_dict md a.data b.data) with
    | Except.error e => Except.error e
    | Except.ok d =>
      DVector.make a.zoning_system out_seg d (choose_time_format a b) 0)
  rw [← hkey, hflat]
  have hXsame : mapE (mapE (fun e : Key × List Key =>
      match mapE (fun s =>
          match mdLookup md s with
          | none => Except.error NdError.keyError
          | some sk =>
            match dlookup a.data sk.1, dlookup b.data sk.2 with
            | some va, some vb => Except.ok ((va.mul vb).flatten)
            | _, _ => Except.error NdError.keyError) e.2 with
        | Except.error err => Except.error err
        | Except.ok prods => Except.ok (e.1, npSumAxis0 prods)))
      (chunkList ad (ceilDiv ad.length chunk_divider)) =
    mapE (multiply_and_aggregate_internal md a.data b.data)
      (chunkList ad (ceilDiv ad.length chunk_divider)) := rfl
  rw [hXsame]
  cases hX : mapE (multiply_and_aggregate_internal md a.data b.data)
      (chunkList ad (ceilDiv ad.length chunk_divider)) with
  | error e => rfl
  | ok crs => rfl

/-- C1 counterexample to the claim as stated: when self has no zoning
system and other does, multiply_and_aggregate stamps self's (null) zoning
system on the result while (a * b).aggregate carries other's, so the two
results are not equal. -/
theorem C1_counterexample :
    ((DVector.multiply_and_aggregate mdMX adOut segOut 1 dvNoZone dvZoned).map
      DVector.zoning_system = .ok none) ∧
    (((DVector.mul mdMX segMX dvNoZone dvZoned).bind
      (fun p => DVector.aggregate adOut segOut p)).map DVector.zoning_system =
        .ok (some zsB)) ∧
    (Except.ok (some zsB) ≠ (.ok none : Except NdError (Option ZoningSystem))) := by
  refine ⟨by decide, by decide, by decide⟩

/-- Witness for C1 at concrete inputs satisfying the amended hypotheses. -/
theorem C1_witness :
    DVector.multiply_and_aggregate mdMM adOut segOut 1 dvNoZone dvNoZone =
      (DVector.mul mdMM segMX dvNoZone dvNoZone).bind
        (fun p => DVector.aggregate adOut segOut p) :=
  C1_multiply_and_aggregate_amended mdMM adOut segMX segOut 1 dvNoZone dvNoZone
    (Or.inl rfl) (by decide) (by decide) (by decide) (by decide) (by decide)

theorem eraseDups_loop_nodup {α : Type} [BEq α] [LawfulBEq α] (as : List α) :
    ∀ bs : List α, bs.Nodup → (List.eraseDups.loop as bs).Nodup := by
  induction as with
  | nil =>
    intro bs h
    simpa [List.eraseDups.loop, List.nodup_reverse] using h
  | cons a as ih =>
    intro bs h
    show (match bs.elem a with
      | true => List.eraseDups.loop as bs
      | false => List.eraseDups.loop as (a :: bs)).Nodup
    cases he : bs.elem a with
    | true => exact ih bs h
    | false =>
      refine ih (a :: bs) (List.nodup_cons.mpr ⟨?_, h⟩)
      intro hm
      rw [List.elem_iff.mpr hm] at he
      exact Bool.noConfusion he

theorem eraseDups_loop_mem {α : Type} [BEq α] [LawfulBEq α] (as : List α) :
    ∀ (bs : List α) (x : α),
      x ∈ List.eraseDups.loop as bs ↔ x ∈ bs ∨ x ∈ as := by
  induction as with
  | nil =>
    intro bs x
    simp [List.eraseDups.loop]
  | cons a as ih =>
    intro bs x
    show x ∈ (match bs.elem a with
      | true => List.eraseDups.loop as bs
      | false => List.eraseDups.loop as (a :: bs)) ↔ x ∈ bs ∨ x ∈ a :: as
    cases he : bs.elem a with
    | true =>
      show x ∈ List.eraseDups.loop as bs ↔ x ∈ bs ∨ x ∈ a :: as
      rw [ih bs x, List.mem_cons]
      constructor
      · rintro (h | h)
        · exact Or.inl h
        · exact Or.inr (Or.inr h)
      · rintro (h | h | h)
        · exact Or.inl h
        · subst h; exact Or.inl (List.elem_iff.mp he)
        · exact Or.inr h
    | false =>
      show x ∈ List.eraseDups.loop as (a :: bs) ↔ x ∈ bs ∨ x ∈ a :: as
      rw [ih (a :: bs) x, List.mem_cons, List.mem_cons]
      tauto

theorem eraseDups_loop_of_nodup {α : Type} [BEq α] [LawfulBEq α] (as : List α) :
    ∀ bs : List α, as.Nodup → (∀ a ∈ as, a ∉ bs) →
      List.eraseDups.loop as bs = bs.reverse ++ as := by
  induction as with
  | nil =>
    intro bs _ _
    simp [List.eraseDups.loop]
  | cons a as ih =>
    intro bs hnd hdisj
    show (match bs.elem a with
      | true => List.eraseDups.loop as bs
      | false => List.eraseDups.loop as (a :: bs)) = bs.reverse ++ a :: as
    have hae : bs.elem a = false := by
      cases he : bs.elem a
      · rfl
      · exact absurd (List.elem_iff.mp he) (hdisj a (List.mem_cons_self a as))
    rw [hae]
    show List.eraseDups.loop as (a :: bs) = bs.reverse ++ a :: as
    have hsub : ∀ x ∈ as, x ∉ a :: bs := by
      intro x hx hm
      rcases List.mem_cons.mp hm with h | h
      · exact (List.nodup_cons.mp hnd).1 (h ▸ hx)
      · exact hdisj x (List.mem_cons_of_mem a hx) h
    rw [ih (a :: bs) (List.nodup_cons.mp hnd).2 hsub, List.reverse_cons, List.append_assoc]
    rfl

theorem eraseDups_eq_self_of_nodup {α : Type} [BEq α] [LawfulBEq α] {l : List α}
    (h : l.Nodup) : l.eraseDups = l := by
  show List.eraseDups.loop l [] = l
  rw [eraseDups_loop_of_nodup l [] h (fun a _ => List.not_mem_nil a)]
  rfl

theorem mem_eraseDups {α : Type} [BEq α] [LawfulBEq α] {l : List α} {x : α} :
    x ∈ l.eraseDups ↔ x ∈ l := by
  show x ∈ List.eraseDups.loop l [] ↔ x ∈ l
  rw [eraseDups_loop_mem l [] x]
  simp

theorem nodup_eraseDups {α : Type} [BEq α] [LawfulBEq α] (l : List α) :
    l.eraseDups.Nodup :=
  eraseDups_loop_nodup l [] List.nodup_nil

theorem insertSorted_perm (r : DfRow) :
    ∀ l : List DfRow, (insertSorted r l).Perm (r :: l) := by
  intro l
  induction l with
  | nil => exact List.Perm.refl _
  | cons x xs ih =>
    show (if rowLe r x = true then r :: x :: xs else x :: insertSorted r xs).Perm
      (r :: x :: xs)
    by_cases h : rowLe r x = true
    · rw [if_pos h]
    · rw [if_neg h]
      exact (List.Perm.cons x ih).trans (List.Perm.swap r x xs)

theorem sortRows_perm : ∀ rows : List DfRow, (sortRows rows).Perm rows := by
  intro rows
  induction rows with
  | nil => exact List.Perm.refl _
  | cons r rs ih =>
    show (insertSorted r (sortRows rs)).Perm (r :: rs)
    exact (insertSorted_perm r (sortRows rs)).trans (List.Perm.cons r ih)

theorem mem_dkeys_dinsertAdd {d : Dict} {k x : Key} (v : Val) :
    x ∈ dkeys (dinsertAdd d k v) ↔ x ∈ dkeys d ∨ x = k := by
  unfold dinsertAdd
  cases hl : dlookup d k with
  | some old =>
    have hk : k ∈ dkeys d := dlookup_isSome_iff.mp (by rw [hl]; rfl)
    rw [dkeys_dset_of_mem _ hk]
    constructor
    · exact Or.inl
    · rintro (h | h)
      · exact h
      · exact h ▸ hk
  | none =>
    rw [dkeys_append]
    show x ∈ dkeys d ++ [k] ↔ _
    rw [List.mem_append, List.mem_singleton]

theorem mem_dkeys_foldl_dinsertAdd (d : Dict) :
    ∀ (acc : Dict) (x : Key),
      x ∈ dkeys (d.foldl (fun acc2 kv => dinsertAdd acc2 kv.1 kv.2) acc) ↔
        x ∈ dkeys acc ∨ x ∈ dkeys d := by
  induction d with
  | nil =>
    intro acc x
    simp [dkeys]
  | cons kv rest ih =>
    intro acc x
    show x ∈ dkeys (rest.foldl (fun acc2 kv => dinsertAdd acc2 kv.1 kv.2)
      (dinsertAdd acc kv.1 kv.2)) ↔ _
    rw [ih (dinsertAdd acc kv.1 kv.2) x, mem_dkeys_dinsertAdd]
    rw [show dkeys (kv :: rest) = kv.1 :: dkeys rest from rfl, List.mem_cons]
    tauto

theorem mem_dkeys_sum_dict_list {ds : List Dict} {x : Key} :
    x ∈ dkeys (sum_dict_list ds) ↔ ∃ d ∈ ds, x ∈ dkeys d := by
  suffices h : ∀ acc : Dict,
      x ∈ dkeys (ds.foldl (fun acc d =>
        d.foldl (fun acc2 kv => dinsertAdd acc2 kv.1 kv.2) acc) acc) ↔
        x ∈ dkeys acc ∨ ∃ d ∈ ds, x ∈ dkeys d by
    have h2 := h []
    show x ∈ dkeys (ds.foldl (fun acc d =>
      d.foldl (fun acc2 kv => dinsertAdd acc2 kv.1 kv.2) acc) []) ↔ _
    rw [h2]
    simp [dkeys]
  induction ds with
  | nil =>
    intro acc
    simp
  | cons d rest ih =>
    intro acc
    show x ∈ dkeys (rest.foldl (fun acc d =>
      d.foldl (fun acc2 kv => dinsertAdd acc2 kv.1 kv.2) acc)
      (d.foldl (fun acc2 kv => dinsertAdd acc2 kv.1 kv.2) acc)) ↔ _
    rw [ih (d.foldl (fun acc2 kv => dinsertAdd acc2 kv.1 kv.2) acc),
      mem_dkeys_foldl_dinsertAdd d acc x]
    simp only [List.mem_cons]
    constructor
    · rintro ((h | h) | ⟨d2, hd2, hx⟩)
      · exact Or.inl h
      · exact Or.inr ⟨d, Or.inl rfl, h⟩
      · exact Or.inr ⟨d2, Or.inr hd2, hx⟩
    · rintro (h | ⟨d2, hd2 | hd2, hx⟩)
      · exact Or.inl (Or.inl h)
      · exact Or.inl (Or.inr (hd2 ▸ hx))
      · exact Or.inr ⟨d2, hd2, hx⟩

theorem mapE_ok_of_forall_ok {α β : Type} {f : α → Except NdError β} :
    ∀ {l : List α}, (∀ a ∈ l, ∃ b, f a = .ok b) →
      ∃ bs, mapE f l = .ok bs ∧ List.Forall₂ (fun a b => f a = .ok b) l bs := by
  intro l
  induction l with
  | nil => intro _; exact ⟨[], rfl, List.Forall₂.nil⟩
  | cons a as ih =>
    intro h
    obtain ⟨b, hb⟩ := h a (List.mem_cons_self a as)
    obtain ⟨bs, hbs, hfa⟩ := ih (fun x hx => h x (List.mem_cons_of_mem a hx))
    refine ⟨b :: bs, ?_, List.Forall₂.cons hb hfa⟩
    show (match f a with
      | Except.error e => Except.error e
      | Except.ok b =>
        match mapE f as with
        | Except.error e => Except.error e
        | Except.ok bs => Except.ok (b :: bs)) = Except.ok (b :: bs)
    rw [hb, hbs]

theorem forall₂_exists_left {α β : Type} {R : α → β → Prop} :
    ∀ {l : List α} {bs : List β}, List.Forall₂ R l bs → ∀ b ∈ bs, ∃ a ∈ l, R a b := by
  intro l bs h
  induction h with
  | nil => intro b hb; cases hb
  | cons hR hrest ih =>
    intro b hb
    rcases List.mem_cons.mp hb with h1 | h1
    · exact ⟨_, List.mem_cons_self _ _, h1 ▸ hR⟩
    · obtain ⟨a2, ha2, hr⟩ := ih b h1
      exact ⟨a2, List.mem_cons_of_mem _ ha2, hr⟩

theorem forall₂_exists_right {α β : Type} {R : α → β → Prop} :
    ∀ {l : List α} {bs : List β}, List.Forall₂ R l bs → ∀ a ∈ l, ∃ b ∈ bs, R a b := by
  intro l bs h
  induction h with
  | nil => intro a ha; cases ha
  | cons hR hrest ih =>
    intro a ha
    rcases List.mem_cons.mp ha with h1 | h1
    · exact ⟨_, List.mem_cons_self _ _, h1 ▸ hR⟩
    · obtain ⟨b2, hb2, hr⟩ := ih a h1
      exact ⟨b2, List.mem_cons_of_mem _ hb2, hr⟩

theorem df_internal_zoneless_ok {seg : SegmentationLevel} {chunk : List DfRow}
    (hnd : (chunk.map DfRow.segment).Nodup) :
    dataframe_to_dvec_internal seg none chunk =
      .ok (chunk.map (fun r => (r.segment, Val.scalar r.val))) := by
  have hcond : ¬((chunk.map DfRow.segment).eraseDups.length ≠
      (chunk.map DfRow.segment).length) := by
    rw [eraseDups_eq_self_of_nodup hnd]
    exact fun h => h rfl
  show (if (chunk.map DfRow.segment).eraseDups.length ≠
      (chunk.map DfRow.segment).length then
      Except.error (NdError.valueError "repeated values for some of the segments")
    else Except.ok (chunk.map (fun r => (r.segment, Val.scalar r.val)))) = _
  rw [if_neg hcond]

theorem df_internal_zoned_ok {seg : SegmentationLevel} {z : ZoningSystem}
    {chunk : List DfRow}
    (hval : ∀ r ∈ chunk, r.segment ∈ seg.segment_names)
    (hz : ∀ r ∈ chunk, r.zone ∈ z.unique_zones)
    (hpairs : (chunk.map (fun r => (r.segment, r.zone))).Nodup) :
    dataframe_to_dvec_internal seg (some z) chunk =
      .ok ((chunk.map DfRow.segment).eraseDups.map (fun s =>
        (s, Val.arr (z.unique_zones.map (fun zn =>
          match (chunk.filter (fun r => r.segment == s)).find?
              (fun r => r.zone == zn) with
          | some r => r.val
          | none => 0))))) := by
  show mapE _ ((chunk.map DfRow.segment).eraseDups) = _
  apply mapE_eq_ok_of
  intro s hs
  have hsm : s ∈ chunk.map DfRow.segment := mem_eraseDups.mp hs
  obtain ⟨r0, hr0, hr0s⟩ := List.mem_map.mp hsm
  have hcont : seg.segment_names.contains s = true :=
    contains_iff_memKey.mpr (hr0s ▸ hval r0 hr0)
  have hfil : ∀ r ∈ chunk.filter (fun r => r.segment == s), r.segment = s := by
    intro r hr
    exact eq_of_beq (List.mem_filter.mp hr).2
  have hl : ((chunk.filter (fun r => r.segment == s)).map
      (fun r => (r.segment, r.zone))).Nodup :=
    hpairs.sublist (List.Sublist.map _ (List.filter_sublist chunk))
  have hrows_nd : (chunk.filter (fun r => r.segment == s)).Nodup := hl.of_map
  have hznd : ((chunk.filter (fun r => r.segment == s)).map DfRow.zone).Nodup := by
    refine List.Nodup.map_on ?_ hrows_nd
    intro r hr r2 hr2 hzz
    refine List.inj_on_of_nodup_map hl hr hr2 ?_
    rw [hfil r hr, hfil r2 hr2, hzz]
  have hzcond : ¬(((chunk.filter (fun r => r.segment == s)).map
      DfRow.zone).eraseDups.length ≠
      ((chunk.filter (fun r => r.segment == s)).map DfRow.zone).length) := by
    rw [eraseDups_eq_self_of_nodup hznd]
    exact fun h => h rfl
  have hall : ((chunk.filter (fun r => r.segment == s)).map DfRow.zone).all
      (fun zn => z.unique_zones.contains zn) = true := by
    rw [List.all_eq_true]
    intro zn hzn
    obtain ⟨r, hr, hrz⟩ := List.mem_map.mp hzn
    exact List.elem_iff.mpr (hrz ▸ hz r (List.mem_of_mem_filter hr))
  show (if (!(seg.segment_names.contains s)) = true then
      Except.error (NdError.valueError
        "not a valid segment name for this segmentation")
    else if ((chunk.filter (fun r => r.segment == s)).map
        DfRow.zone).eraseDups.length ≠
        ((chunk.filter (fun r => r.segment == s)).map DfRow.zone).length then
      Except.error (NdError.valueError "repeated values for some of the zones")
    else if (!(((chunk.filter (fun r => r.segment == s)).map DfRow.zone).all
        (fun zn => z.unique_zones.contains zn))) = true then
      Except.error (NdError.valueError
        "zones that do not exist in this zoning system")
    else Except.ok (s, Val.arr (z.unique_zones.map (fun zn =>
      match (chunk.filter (fun r => r.segment == s)).find?
          (fun r => r.zone == zn) with
      | some r => r.val
      | none => 0)))) = _
  rw [hcont]
  rw [if_neg (fun hc => Bool.noConfusion hc)]
  rw [if_neg hzcond]
  rw [hall]
  rw [if_neg (fun hc => Bool.noConfusion hc)]

theorem dkeys_map_keyfun (g : Key → Val) (ks : List Key) :
    dkeys (ks.map (fun s => (s, g s))) = ks := by
  unfold dkeys
  rw [List.map_map]
  rw [show (Prod.fst ∘ fun s => (s, g s)) = id from rfl, List.map_id]

theorem dataframe_chunks_spec (seg : SegmentationLevel) (zs : Option ZoningSystem)
    (infill : ℚ) (rows : List DfRow) (size : ℕ)
    (hrows : ∀ r ∈ rows, r.segment ∈ seg.segment_names)
    (hsz : 1 ≤ size ∨ sortRows rows = [])
    (hint : ∀ c : List DfRow, c.Sublist (sortRows rows) → ∃ Dc,
      dataframe_to_dvec_internal seg zs c = .ok Dc ∧
      ∀ x, x ∈ dkeys Dc ↔ x ∈ c.map DfRow.segment) :
    ∃ D2,
      (match mapE (dataframe_to_dvec_internal seg zs)
          (chunkList (sortRows rows) size) with
        | Except.error e => Except.error e
        | Except.ok chunks => Except.ok (infill_missing seg.segment_names
            (default_val zs infill) (sum_dict_list chunks))) = Except.ok D2 ∧
      (∀ s, s ∈ dkeys D2 ↔ s ∈ seg.segment_names) ∧
      (∀ s ∈ seg.segment_names, (∀ r ∈ rows, r.segment ≠ s) →
        dlookup D2 s = some (default_val zs infill)) := by
  have hflatten : (chunkList (sortRows rows) size).flatten = sortRows rows :=
    chunkList_flatten _ _ hsz
  obtain ⟨Ds, hDs, hfa⟩ := mapE_ok_of_forall_ok
    (fun c hc => (hint c (chunkList_sublist hc)).imp (fun Dc h => h.1))
  have hperm := sortRows_perm rows
  have hkmerge : ∀ x, x ∈ dkeys (sum_dict_list Ds) ↔
      x ∈ (sortRows rows).map DfRow.segment := by
    intro x
    rw [mem_dkeys_sum_dict_list]
    constructor
    · rintro ⟨dd, hdd, hx⟩
      obtain ⟨c, hc, hfc⟩ := forall₂_exists_left hfa dd hdd
      obtain ⟨Dc, hDc1, hDc2⟩ := hint c (chunkList_sublist hc)
      have hddD : dd = Dc := by
        rw [hfc] at hDc1
        exact Except.ok.inj hDc1
      rw [hddD] at hx
      have hxc : x ∈ c.map DfRow.segment := (hDc2 x).mp hx
      exact ((chunkList_sublist hc).map DfRow.segment).subset hxc
    · intro hx
      obtain ⟨r, hr, hrx⟩ := List.mem_map.mp hx
      have hr2 : r ∈ (chunkList (sortRows rows) size).flatten := by
        rw [hflatten]
        exact hr
      obtain ⟨c, hcmem, hrc⟩ := List.mem_flatten.mp hr2
      obtain ⟨dd, hdd, hfc⟩ := forall₂_exists_right hfa c hcmem
      obtain ⟨Dc, hDc1, hDc2⟩ := hint c (chunkList_sublist hcmem)
      have hddD : dd = Dc := by
        rw [hfc] at hDc1
        exact Except.ok.inj hDc1
      refine ⟨dd, hdd, ?_⟩
      rw [hddD]
      exact (hDc2 x).mpr (List.mem_map.mpr ⟨r, hrc, hrx⟩)
  refine ⟨infill_missing seg.segment_names (default_val zs infill)
    (sum_dict_list Ds), ?_, ?_, ?_⟩
  · rw [hDs]
  · intro s
    rw [mem_dkeys_infill_missing]
    constructor
    · rintro (h | h)
      · rw [hkmerge s] at h
        obtain ⟨r, hr, hrs⟩ := List.mem_map.mp h
        exact hrs ▸ hrows r (hperm.mem_iff.mp hr)
      · exact h
    · exact Or.inr
  · intro s hsn hnone
    refine dlookup_infill_missing_absent hsn ?_
    intro hmem
    rw [hkmerge s] at hmem
    obtain ⟨r, hr, hrs⟩ := List.mem_map.mp hmem
    exact hnone r (hperm.mem_iff.mp hr) hrs

/-- C3 (amended): for a valid segmentation and a subset of valid segments
supplied as input, construction yields a data key set exactly equal to the
segmentation's segment names with every missing segment infilled with the
default value (scalar infill if zoneless, an array of infill per zone
otherwise) — provided, on the dictionary path, that a zoning system is
present or no segment is missing (otherwise the infill loop raises
AttributeError on `default_val.copy()`), and, on the tabular path, that
the table is nonempty (an empty table makes the chunk size zero and the
progress-bar setup raises ZeroDivisionError) — see the counterexample for
both failure modes.  The tabular hypotheses say the rows carry valid
segments, no duplicated segment/zone combination, and known zones. -/
theorem C3_construction_infill_completeness
    (seg : SegmentationLevel) (zs : Option ZoningSystem) (infill : ℚ) (d : Dict)
    (rows : List DfRow) (df_chunk_size process_count : ℕ)
    (hdict : ∀ k ∈ dkeys d, k ∈ seg.segment_names)
    (hzd : zs ≠ none ∨ ∀ s ∈ seg.segment_names, s ∈ dkeys d)
    (hrows : ∀ r ∈ rows, r.segment ∈ seg.segment_names)
    (hsegnd : zs = none → (rows.map DfRow.segment).Nodup)
    (hpairs : (rows.map (fun r => (r.segment, r.zone))).Nodup)
    (hzones : ∀ z : ZoningSystem, zs = some z → ∀ r ∈ rows, r.zone ∈ z.unique_zones)
    (hpc : 0 < process_count) (hcs : 0 < df_chunk_size) (hne : rows ≠ []) :
    (∃ D1, dict_to_dvec seg zs infill d = .ok D1 ∧
      (∀ s, s ∈ dkeys D1 ↔ s ∈ seg.segment_names) ∧
      (∀ s ∈ seg.segment_names, s ∉ dkeys d →
        dlookup D1 s = some (default_val zs infill))) ∧
    (∃ D2, dataframe_to_dvec seg zs infill df_chunk_size process_count rows =
        .ok D2 ∧
      (∀ s, s ∈ dkeys D2 ↔ s ∈ seg.segment_names) ∧
      (∀ s ∈ seg.segment_names, (∀ r ∈ rows, r.segment ≠ s) →
        dlookup D2 s = some (default_val zs infill))) := by
  constructor
  · refine ⟨infill_missing seg.segment_names (default_val zs infill) d,
      dict_to_dvec_ok hdict hzd, ?_, ?_⟩
    · intro s
      rw [mem_dkeys_infill_missing]
      exact ⟨fun h => h.elim (fun h2 => hdict s h2) id, Or.inr⟩
    · intro s hs hnot
      exact dlookup_infill_missing_absent hs hnot
  · have hperm := sortRows_perm rows
    have hsne : sortRows rows ≠ [] := by
      intro hc
      have h2 := sortRows_perm rows
      rw [hc] at h2
      exact hne h2.symm.eq_nil
    have hsz1 : 1 ≤ (if (sortRows rows).length < df_chunk_size * process_count then
        ceilDiv (sortRows rows).length process_count else df_chunk_size) := by
      have hlen : 1 ≤ (sortRows rows).length := by
        cases hsr : sortRows rows with
        | nil => exact absurd hsr hsne
        | cons a l => simp
      by_cases hlt : (sortRows rows).length < df_chunk_size * process_count
      · rw [if_pos hlt]
        unfold ceilDiv
        rw [Nat.le_div_iff_mul_le hpc]
        omega
      · rw [if_neg hlt]
        exact hcs
    have hint : ∀ c : List DfRow, c.Sublist (sortRows rows) → ∃ Dc,
        dataframe_to_dvec_internal seg zs c = .ok Dc ∧
        ∀ x, x ∈ dkeys Dc ↔ x ∈ c.map DfRow.segment := by
      intro c hsub
      cases hzs : zs with
      | none =>
        have hnd : (rows.map DfRow.segment).Nodup := hsegnd hzs
        have hsortnd : ((sortRows rows).map DfRow.segment).Nodup :=
          ((hperm.map DfRow.segment).nodup_iff).mpr hnd
        have hcnd : (c.map DfRow.segment).Nodup :=
          hsortnd.sublist (hsub.map DfRow.segment)
        refine ⟨c.map (fun r => (r.segment, Val.scalar r.val)),
          df_internal_zoneless_ok hcnd, ?_⟩
        intro x
        show x ∈ (c.map (fun r => (r.segment, Val.scalar r.val))).map Prod.fst ↔ _
        rw [List.map_map]
        exact Iff.rfl
      | some z =>
        have hval : ∀ r ∈ c, r.segment ∈ seg.segment_names :=
          fun r hr => hrows r (hperm.mem_iff.mp (hsub.subset hr))
        have hzc : ∀ r ∈ c, r.zone ∈ z.unique_zones :=
          fun r hr => hzones z hzs r (hperm.mem_iff.mp (hsub.subset hr))
        have hsortp : ((sortRows rows).map (fun r => (r.segment, r.zone))).Nodup :=
          ((hperm.map (fun r => (r.segment, r.zone))).nodup_iff).mpr hpairs
        have hcp : (c.map (fun r => (r.segment, r.zone))).Nodup :=
          hsortp.sublist (hsub.map (fun r => (r.segment, r.zone)))
        refine ⟨_, df_internal_zoned_ok hval hzc hcp, ?_⟩
        intro x
        rw [dkeys_map_keyfun]
        exact mem_eraseDups
    obtain ⟨D2, hD2, hk, hd2⟩ := dataframe_chunks_spec seg zs infill rows
      (if (sortRows rows).length < df_chunk_size * process_count then
        ceilDiv (sortRows rows).length process_count else df_chunk_size)
      hrows (Or.inl hsz1) hint
    refine ⟨D2, ?_, hk, hd2⟩
    show (if (if (sortRows rows).length < df_chunk_size * process_count then
          ceilDiv (sortRows rows).length process_count else df_chunk_size) = 0 then
        Except.error NdError.zeroDivisionError
      else
        match mapE (dataframe_to_dvec_internal seg zs)
            (chunkList (sortRows rows)
              (if (sortRows rows).length < df_chunk_size * process_count then
                ceilDiv (sortRows rows).length process_count else df_chunk_size)) with
        | Except.error e => Except.error e
        | Except.ok chunks => Except.ok (infill_missing seg.segment_names
            (default_val zs infill) (sum_dict_list chunks))) = Except.ok D2
    rw [if_neg (by omega)]
    exact hD2

/-- Witness for C3 at a concrete zoneless segmentation, dictionary and
table. -/
theorem C3_witness :
    (∃ D1, dict_to_dvec segM none 7 [("m", Val.scalar 1)] = .ok D1 ∧
      (∀ s, s ∈ dkeys D1 ↔ s ∈ segM.segment_names) ∧
      (∀ s ∈ segM.segment_names, s ∉ dkeys [("m", Val.scalar 1)] →
        dlookup D1 s = some (default_val none 7))) ∧
    (∃ D2, dataframe_to_dvec segM none 7 1 1 [⟨"m", 1, 3⟩] = .ok D2 ∧
      (∀ s, s ∈ dkeys D2 ↔ s ∈ segM.segment_names) ∧
      (∀ s ∈ segM.segment_names, (∀ r ∈ [(⟨"m", 1, 3⟩ : DfRow)], r.segment ≠ s) →
        dlookup D2 s = some (default_val none 7))) :=
  C3_construction_infill_completeness segM none 7 [("m", Val.scalar 1)]
    [⟨"m", 1, 3⟩] 1 1 (by decide) (Or.inr (by decide)) (by decide)
    (fun _ => by decide) (by decide) (fun _ hz => Option.noConfusion hz)
    (by decide) (by decide) (by decide)

/-- C3 counterexample to the claim as stated: a zoneless dictionary build
with a missing segment raises AttributeError (the plain-number default has
no `.copy`), and an empty table makes the computed chunk size zero so the
tabular build raises ZeroDivisionError — in neither case does construction
succeed. -/
theorem C3_counterexample :
    dict_to_dvec segM none 0 [] = .error .attributeError ∧
    dataframe_to_dvec segM none 0 1 1 [] = .error .zeroDivisionError :=
  ⟨by decide, by decide⟩
